import Mathlib

/-
Verification development for the Dependency Frontier & Cumulative Time
Propagation Engine of the frontier-planner repository.

The engine lives in two files:
  src/utils/frontierUtils.js : findAncestors, isTaskExecutable, findFrontierTasks
  src/utils/timeUtils.js     : convertToDays, formatTime, calculateMinTime,
                               hasInvalidAncestor, findAllAncestors,
                               calculateCumulativeTimes

Modelling choices:
  - JS numbers are modelled as rationals (ℚ).
  - Task statuses are the literal strings used by the store:
    "todo", "in-progress", "done", "someday" ("done"/"someday" are the
    spec's Done/Deferred).
  - `estimatedTime` is an `Option ℚ`; the JS truthiness test
    `!node.data.estimatedTime` is `estTruthy` below (null/undefined/0 are
    falsy, every other number truthy).
  - JS `Set`s are insertion-ordered lists without duplicates, JS `Map`s are
    association lists; `Map.set` is `mapSet` (replace in place or append).
  - The recursive JS functions carry no termination guarantee (the graph
    may be cyclic), so each one takes an explicit fuel argument and returns
    `none` exactly when the recursion would still be running after `fuel`
    levels of nesting.  A `some` result is the value the JS function
    returns.  Recursion over a child list at one nesting level does not
    consume fuel, mirroring the sequential loop in the source.
  - The unused `frontierTasks` display parameter of
    `calculateCumulativeTimes` is omitted.
-/

structure NodeData where
  status : String
  estimatedTime : Option ℚ
  estimatedTimeUnit : String
deriving DecidableEq

structure TaskNode where
  id : String
  data : NodeData
deriving DecidableEq

structure Edge where
  source : String
  target : String
deriving DecidableEq

/-- JS truthiness of `node.data.estimatedTime`: null/undefined/0 are falsy. -/
def estTruthy : Option ℚ → Bool
  | none => false
  | some v => v != 0

/-- timeUtils.js `convertToDays`: non-positive (or missing) values give 0,
weeks are 5 days, months are 20 days, anything else is taken as days. -/
def convertToDays (value : ℚ) (unit : String) : ℚ :=
  if value ≤ 0 then 0
  else if unit == "weeks" then value * 5
  else if unit == "months" then value * 20
  else value

/-- The node's own time in days, `convertToDays(node.data.estimatedTime,
node.data.estimatedTimeUnit)` (a missing estimate converts to 0). -/
def getOwnTime (nd : NodeData) : ℚ :=
  convertToDays (nd.estimatedTime.getD 0) nd.estimatedTimeUnit

/-- Numerator of `q.toFixed(1)`: the value rounded half-up to tenths,
scaled by 10, i.e. the floor of `10*q + 1/2` (used on non-negative inputs
only).  Written on the numerator and denominator of `q` directly so that it
is pure integer arithmetic: `⌊10q + 1/2⌋ = (20·num + den) div (2·den)`. -/
def round1Num (q : ℚ) : Int :=
  (20 * q.num + q.den) / (2 * q.den)

/-- Render `q.toFixed(1).replace(/\.0$/, '')` followed by the unit word,
pluralised unless the rendered value parses back to exactly 1. -/
def formatUnit (q : ℚ) (sing plur : String) : String :=
  let n := round1Num q
  let valueStr :=
    if n % 10 == 0 then toString (n / 10)
    else toString (n / 10) ++ "." ++ toString (n % 10)
  valueStr ++ " " ++ (if n == 10 then sing else plur)

/-- timeUtils.js `formatTime`: months if days ≥ 20, weeks if days ≥ 5,
days otherwise; non-positive input gives the empty string. -/
def formatTime (days : ℚ) : String :=
  if days ≤ 0 then ""
  else if 20 ≤ days then formatUnit (days / 20) "month" "months"
  else if 5 ≤ days then formatUnit (days / 5) "week" "weeks"
  else formatUnit days "day" "days"

/-
Frontier detection (src/utils/frontierUtils.js).
-/

/-- Sequential traversal of a list of incoming edges, threading the visited
list through `go` (the body of the `forEach` in `findAncestors` /
`findAllAncestors`); `none` propagates fuel exhaustion. -/
def ancList (go : String → List String → Option (List String)) :
    List Edge → List String → Option (List String)
  | [], visited => some visited
  | e :: rest, visited =>
    match go e.source visited with
    | none => none
    | some v => ancList go rest v

/-- One level of frontierUtils.js `findAncestors`: walk every edge pointing
to `taskId` backwards, guarding with the visited set; `rec` performs the
recursive calls. -/
def findAncestorsStep (rec : String → List String → Option (List String))
    (taskId : String) (edges : List Edge) (visited : List String) :
    Option (List String) :=
  if visited.contains taskId then
    some visited
  else
    ancList rec (edges.filter (fun e => e.target == taskId))
      (visited ++ [taskId])

/-- frontierUtils.js `findAncestors`, with fuel counting recursion depth. -/
def findAncestorsF : Nat → String → List Edge → List String →
    Option (List String)
  | 0, _, _, _ => none
  | fuel + 1, taskId, edges, visited =>
    findAncestorsStep (fun s v => findAncestorsF fuel s edges v) taskId edges
      visited

/-- frontierUtils.js `isTaskExecutable`: every incoming edge must lead to an
existing node whose status is done or someday. -/
def isTaskExecutable (taskId : String) (edges : List Edge)
    (nodes : List TaskNode) : Bool :=
  (edges.filter (fun e => e.target == taskId)).all (fun e =>
    match nodes.find? (fun n => n.id == e.source) with
    | none => false
    | some dependencyNode =>
      dependencyNode.data.status == "done" ||
        dependencyNode.data.status == "someday")

/-- frontierUtils.js `findFrontierTasks`: the ancestors of the selected task
(except itself) that are active and executable. -/
def findFrontierTasksF (fuel : Nat) (selectedTaskId : Option String)
    (nodes : List TaskNode) (edges : List Edge) : Option (List String) :=
  match selectedTaskId with
  | none => some []
  | some sid =>
    match findAncestorsF fuel sid edges [] with
    | none => none
    | some ancestors0 =>
      some ((ancestors0.erase sid).filter (fun ancestorId =>
        match nodes.find? (fun n => n.id == ancestorId) with
        | none => false
        | some ancestorNode =>
          ancestorNode.data.status != "done" &&
            ancestorNode.data.status != "someday" &&
            isTaskExecutable ancestorId edges nodes))

/-
Time propagation (src/utils/timeUtils.js).
-/

abbrev MinMemo := List (String × Option ℚ)

/-- `Math.max` over a list already known to be non-empty (the `[]` case is
unreachable at every use site). -/
def listMax : List ℚ → ℚ
  | [] => 0
  | x :: xs => xs.foldl max x

/-- Sequential `parents.map(parentId => calculateMinTime(...))`, threading
the memo table through `go`. -/
def minList (go : String → MinMemo → Option (Option ℚ × MinMemo)) :
    List String → MinMemo → Option (List (Option ℚ) × MinMemo)
  | [], memo => some ([], memo)
  | p :: ps, memo =>
    match go p memo with
    | none => none
    | some (t, memo1) =>
      match minList go ps memo1 with
      | none => none
      | some (ts, memo2) => some (t :: ts, memo2)

/-- One level of timeUtils.js `calculateMinTime`: memoised critical-path
time; the inner `Option ℚ` is the JS number-or-null result.  The memo is
only written on return, exactly as in the source (which is why a cycle of
estimated nodes recurses forever). -/
def calculateMinTimeStep (rec : String → MinMemo → Option (Option ℚ × MinMemo))
    (nodeId : String) (nodes : List TaskNode) (edges : List Edge)
    (memo : MinMemo) : Option (Option ℚ × MinMemo) :=
  match memo.lookup nodeId with
  | some v => some (v, memo)
  | none =>
    match nodes.find? (fun n => n.id == nodeId) with
    | none => some (none, (nodeId, (none : Option ℚ)) :: memo)
    | some node =>
      if node.data.status == "done" || node.data.status == "someday" then
        some (some 0, (nodeId, some (0 : ℚ)) :: memo)
      else if !(estTruthy node.data.estimatedTime) then
        some (none, (nodeId, (none : Option ℚ)) :: memo)
      else
        let ownTime := getOwnTime node.data
        let parents :=
          (edges.filter (fun e => e.target == nodeId)).map (fun e => e.source)
        if parents.isEmpty then
          some (some ownTime, (nodeId, some ownTime) :: memo)
        else
          match minList rec parents memo with
          | none => none
          | some (parentMinTimes, memo1) =>
            if parentMinTimes.any (fun t => t.isNone) then
              some (none, (nodeId, (none : Option ℚ)) :: memo1)
            else
              let result :=
                ownTime + listMax (parentMinTimes.map (fun t => t.getD 0))
              some (some result, (nodeId, some result) :: memo1)

/-- timeUtils.js `calculateMinTime`, with fuel counting recursion depth;
`none` is fuel exhaustion, a `some` result is what the JS function
returns. -/
def calculateMinTimeF : Nat → String → List TaskNode → List Edge → MinMemo →
    Option (Option ℚ × MinMemo)
  | 0, _, _, _, _ => none
  | fuel + 1, nodeId, nodes, edges, memo =>
    calculateMinTimeStep (fun p m => calculateMinTimeF fuel p nodes edges m)
      nodeId nodes edges memo

abbrev InvCache := List (String × Bool)

/-- The `for (const parentId of parents)` loop of `hasInvalidAncestor`:
stop at the first invalid parent, threading the shared cache. -/
def invList (go : String → InvCache → Option (Bool × InvCache)) :
    List String → InvCache → Option (Bool × InvCache)
  | [], cache => some (false, cache)
  | p :: ps, cache =>
    match go p cache with
    | none => none
    | some (b, cache1) => if b then some (true, cache1) else invList go ps cache1

/-- One level of timeUtils.js `hasInvalidAncestor`: cycle detection via a
per-branch copy of the visited set (modelled by passing the same extended
list to every branch through `rec`), plus a cache shared across the whole
evaluation. -/
def hasInvalidStep
    (rec : String → List String → InvCache → Option (Bool × InvCache))
    (nodeId : String) (nodes : List TaskNode) (edges : List Edge)
    (visited : List String) (invalidCache : InvCache) :
    Option (Bool × InvCache) :=
  match invalidCache.lookup nodeId with
  | some b => some (b, invalidCache)
  | none =>
    if visited.contains nodeId then
      some (false, invalidCache)
    else
      match nodes.find? (fun n => n.id == nodeId) with
      | none => some (false, (nodeId, false) :: invalidCache)
      | some node =>
        if node.data.status == "done" || node.data.status == "someday" then
          some (false, (nodeId, false) :: invalidCache)
        else if !(estTruthy node.data.estimatedTime) then
          some (true, (nodeId, true) :: invalidCache)
        else
          let parents :=
            (edges.filter (fun e => e.target == nodeId)).map
              (fun e => e.source)
          match invList (fun p c => rec p (visited ++ [nodeId]) c)
              parents invalidCache with
          | none => none
          | some (b, cache1) => some (b, (nodeId, b) :: cache1)

/-- timeUtils.js `hasInvalidAncestor`, with fuel counting recursion depth. -/
def hasInvalidAncestorF : Nat → String → List TaskNode → List Edge →
    List String → InvCache → Option (Bool × InvCache)
  | 0, _, _, _, _, _ => none
  | fuel + 1, nodeId, nodes, edges, visited, invalidCache =>
    hasInvalidStep (fun p v c => hasInvalidAncestorF fuel p nodes edges v c)
      nodeId nodes edges visited invalidCache

/-- One level of timeUtils.js `findAllAncestors`: like `findAncestors` but
stopping at done/someday nodes and at ids with no node. -/
def findAllAncestorsStep (rec : String → List String → Option (List String))
    (nodeId : String) (nodes : List TaskNode) (edges : List Edge)
    (visited : List String) : Option (List String) :=
  if visited.contains nodeId then
    some visited
  else
    match nodes.find? (fun n => n.id == nodeId) with
    | none => some (visited ++ [nodeId])
    | some node =>
      if node.data.status == "done" || node.data.status == "someday" then
        some (visited ++ [nodeId])
      else
        ancList rec (edges.filter (fun e => e.target == nodeId))
          (visited ++ [nodeId])

/-- timeUtils.js `findAllAncestors`, with fuel counting recursion depth. -/
def findAllAncestorsF : Nat → String → List TaskNode → List Edge →
    List String → Option (List String)
  | 0, _, _, _, _ => none
  | fuel + 1, nodeId, nodes, edges, visited =>
    findAllAncestorsStep (fun s v => findAllAncestorsF fuel s nodes edges v)
      nodeId nodes edges visited

/-- One entry of the result map: `{sum, min, showQuestionMark?}`; a missing
`showQuestionMark` is the falsy `false`. -/
structure TimeEntry where
  sum : Option ℚ
  min : Option ℚ
  showQuestionMark : Bool
deriving DecidableEq

abbrev CMap := List (String × TimeEntry)

/-- JS `Map.set`: replace the entry in place if the key is present,
otherwise append. -/
def mapSet (k : String) (v : TimeEntry) (m : CMap) : CMap :=
  if m.any (fun p => p.1 == k) then
    m.map (fun p => if p.1 == k then (k, v) else p)
  else m ++ [(k, v)]

/-- Contribution of one ancestor id to a serial sum: its own time when the
node exists, has a truthy estimate and is not done/someday, else 0 (the
guarded `+=` of the two sum loops in `calculateCumulativeTimes`). -/
def contrib (nodes : List TaskNode) (id : String) : ℚ :=
  match nodes.find? (fun n => n.id == id) with
  | none => 0
  | some n =>
    if estTruthy n.data.estimatedTime && n.data.status != "done" &&
        n.data.status != "someday" then
      getOwnTime n.data
    else 0

/-- The `forEach` accumulation of unique-ancestor contributions. -/
def sumContrib (ids : List String) (nodes : List TaskNode) : ℚ :=
  ids.foldl (fun acc id => acc + contrib nodes id) 0

/-- The `allAncestors.forEach(ancestorId => ...)` loop of
`calculateCumulativeTimes`, threading the result map, the min-time memo and
the invalid cache. -/
def ancestorLoopF (fuel : Nat) (ids : List String) (nodes : List TaskNode)
    (edges : List Edge) (ct : CMap) (minMemo : MinMemo) (cache : InvCache) :
    Option CMap :=
  match ids with
  | [] => some ct
  | ancestorId :: rest =>
    match nodes.find? (fun n => n.id == ancestorId) with
    | none => ancestorLoopF fuel rest nodes edges ct minMemo cache
    | some node =>
      if node.data.status == "done" || node.data.status == "someday" then
        ancestorLoopF fuel rest nodes edges ct minMemo cache
      else if !(estTruthy node.data.estimatedTime) then
        ancestorLoopF fuel rest nodes edges
          (mapSet ancestorId ⟨none, none, true⟩ ct) minMemo cache
      else
        match hasInvalidAncestorF fuel ancestorId nodes edges [] cache with
        | none => none
        | some (inv, cache1) =>
          if inv then ancestorLoopF fuel rest nodes edges ct minMemo cache1
          else
            match calculateMinTimeF fuel ancestorId nodes edges minMemo with
            | none => none
            | some (ancestorMinO, minMemo1) =>
              match ancestorMinO with
              | none => ancestorLoopF fuel rest nodes edges ct minMemo1 cache1
              | some ancestorMin =>
                match findAllAncestorsF fuel ancestorId nodes edges [] with
                | none => none
                | some ancAnc0 =>
                  let ancestorSum :=
                    sumContrib (ancAnc0.erase ancestorId) nodes +
                      (if estTruthy node.data.estimatedTime then
                        getOwnTime node.data else 0)
                  let ct1 :=
                    if 0 < ancestorSum ∨ 0 < ancestorMin then
                      mapSet ancestorId
                        ⟨some ancestorSum, some ancestorMin, false⟩ ct
                    else ct
                  ancestorLoopF fuel rest nodes edges ct1 minMemo1 cache1

/-- timeUtils.js `calculateCumulativeTimes` (the unused `frontierTasks`
display argument is dropped). -/
def calculateCumulativeTimesF (fuel : Nat) (selectedNodeId : Option String)
    (nodes : List TaskNode) (edges : List Edge) : Option CMap :=
  match selectedNodeId with
  | none => some []
  | some sid =>
    match nodes.find? (fun n => n.id == sid) with
    | none => some []
    | some selectedNode =>
      if selectedNode.data.status == "done" ||
          selectedNode.data.status == "someday" then
        some []
      else
        match findAllAncestorsF fuel sid nodes edges [] with
        | none => none
        | some allAncestors0 =>
          let allAncestors := allAncestors0.erase sid
          let ct0 : CMap :=
            if !(estTruthy selectedNode.data.estimatedTime) then
              [(sid, ⟨none, none, true⟩)]
            else []
          match hasInvalidAncestorF fuel sid nodes edges [] [] with
          | none => none
          | some (selectedInvalid, cache1) =>
            if selectedInvalid then
              ancestorLoopF fuel allAncestors nodes edges ct0 [] cache1
            else
              match calculateMinTimeF fuel sid nodes edges [] with
              | none => none
              | some (totalMinO, minMemo1) =>
                match totalMinO with
                | none =>
                  ancestorLoopF fuel allAncestors nodes edges ct0 minMemo1
                    cache1
                | some totalMin =>
                  let totalSum :=
                    sumContrib allAncestors nodes +
                      (if estTruthy selectedNode.data.estimatedTime then
                        getOwnTime selectedNode.data else 0)
                  let ct1 :=
                    if 0 < totalSum ∨ 0 < totalMin then
                      mapSet sid ⟨some totalSum, some totalMin, false⟩ ct0
                    else ct0
                  ancestorLoopF fuel allAncestors nodes edges ct1 minMemo1
                    cache1

/-
Specification-side notions used to state the claims.
-/

/-- `x` is a direct prerequisite (parent) of `y`: some edge runs x → y. -/
def IsParent (edges : List Edge) (x y : String) : Prop :=
  ∃ e ∈ edges, e.source = x ∧ e.target = y

/-- `x` is an ancestor of `y` (reflexive-transitive closure of `IsParent`);
the unbounded ancestor cone of `y` is `{x | Reaches edges x y ∧ x ≠ y}`. -/
def Reaches (edges : List Edge) (x y : String) : Prop :=
  Relation.ReflTransGen (IsParent edges) x y

/-- Membership in the terminating backward walk from `root`: the walk may
expand a node only when it exists and is neither done nor someday, so
`TReach nodes edges root x` holds when some backward path from `root`
reaches `x` through existing active intermediate nodes. -/
inductive TReach (nodes : List TaskNode) (edges : List Edge) (root : String) :
    String → Prop where
  | refl : TReach nodes edges root root
  | step {w : String} {nd : TaskNode} {e : Edge} :
      TReach nodes edges root w →
      nodes.find? (fun n => n.id == w) = some nd →
      nd.data.status ≠ "done" → nd.data.status ≠ "someday" →
      e ∈ edges → e.target = w →
      TReach nodes edges root e.source

/-- The poison condition: some backward path of existing, active, estimated
nodes starting at `n` ends at an existing active node with no (truthy)
estimate. -/
inductive Invalid (nodes : List TaskNode) (edges : List Edge) :
    String → Prop where
  | base {n : String} {nd : TaskNode} :
      nodes.find? (fun x => x.id == n) = some nd →
      nd.data.status ≠ "done" → nd.data.status ≠ "someday" →
      estTruthy nd.data.estimatedTime = false →
      Invalid nodes edges n
  | step {n : String} {nd : TaskNode} {e : Edge} :
      nodes.find? (fun x => x.id == n) = some nd →
      nd.data.status ≠ "done" → nd.data.status ≠ "someday" →
      estTruthy nd.data.estimatedTime = true →
      e ∈ edges → e.target = n →
      Invalid nodes edges e.source →
      Invalid nodes edges n

/-- Evaluation of a list of prerequisites under the memo-free recurrence. -/
def recList (go : String → Option (Option ℚ)) :
    List String → Option (List (Option ℚ))
  | [] => some []
  | p :: ps =>
    match go p with
    | none => none
    | some t =>
      match recList go ps with
      | none => none
      | some ts => some (t :: ts)

/-- The critical-path recurrence exactly as the specification states it
(§4.3 step 4): 0 for done/someday, the Unknown sentinel for an active node
without an estimate (and for a dangling id, which the code also treats as
invalid), own duration for an estimated node with no prerequisites, and
`duration + max(0, max over prerequisites)` otherwise.  This is the
memoisation-free mirror of `calculateMinTime`, used to state that the code
satisfies the claimed recurrence. -/
def criticalMinRecStep (rec : String → Option (Option ℚ)) (nodeId : String)
    (nodes : List TaskNode) (edges : List Edge) : Option (Option ℚ) :=
  match nodes.find? (fun n => n.id == nodeId) with
  | none => some none
  | some node =>
    if node.data.status == "done" || node.data.status == "someday" then
      some (some 0)
    else if !(estTruthy node.data.estimatedTime) then
      some none
    else
      let parents :=
        (edges.filter (fun e => e.target == nodeId)).map (fun e => e.source)
      if parents.isEmpty then
        some (some (getOwnTime node.data))
      else
        match recList rec parents with
        | none => none
        | some ts =>
          if ts.any (fun t => t.isNone) then
            some none
          else
            some (some (getOwnTime node.data +
              max 0 (listMax (ts.map (fun t => t.getD 0)))))

/-- The fuelled recurrence itself. -/
def criticalMinRecF : Nat → String → List TaskNode → List Edge →
    Option (Option ℚ)
  | 0, _, _, _ => none
  | fuel + 1, nodeId, nodes, edges =>
    criticalMinRecStep (fun p => criticalMinRecF fuel p nodes edges) nodeId
      nodes edges

/-- Every memo entry is a value of the specification recurrence. -/
def MemoOK (nodes : List TaskNode) (edges : List Edge) (memo : MinMemo) :
    Prop :=
  ∀ p ∈ memo, ∃ g, criticalMinRecF g p.1 nodes edges = some p.2

/-- Every cached `true` of the invalid cache is semantically justified. -/
def CacheSound (nodes : List TaskNode) (edges : List Edge)
    (cache : InvCache) : Prop :=
  ∀ p ∈ cache, p.2 = true → Invalid nodes edges p.1

/-- The data-model invariant of §3: every edge endpoint references a node
present in the node set. -/
def NoDangling (nodes : List TaskNode) (edges : List Edge) : Prop :=
  ∀ e ∈ edges, (nodes.find? (fun n => n.id == e.source)).isSome ∧
    (nodes.find? (fun n => n.id == e.target)).isSome

/-
Claim C1: the cycle-safety claim.  `findFrontierTasks` does guard every
recursion with a visited set, but `calculateMinTime` only writes its memo
on return, so on a self-referencing estimated active node the JS function
recurses forever.  In the fuel model: the computation is `none` for every
fuel, i.e. no amount of fuel completes it.
-/

def c1nodes : List TaskNode := [⟨"a", ⟨"todo", some 1, "days"⟩⟩]

def c1edges : List Edge := [⟨"a", "a"⟩]

theorem c1_minTime_diverges (fuel : Nat) :
    calculateMinTimeF fuel "a" c1nodes c1edges [] = none := by
  induction fuel with
  | zero => rfl
  | succ f ih =>
    show calculateMinTimeStep _ "a" c1nodes c1edges [] = none
    simp only [c1nodes, c1edges] at ih
    simp [calculateMinTimeStep, minList, c1nodes, c1edges, ih, estTruthy,
      List.lookup]

/-- Claim C1 (code bug).  On the snapshot with the single estimated active
node `a` and the self-referencing edge `a → a`, `calculateCumulativeTimes`
never returns: in the fuel model the call is `none` (still recursing) for
every fuel, because `calculateMinTime` writes its memo only on return and
therefore recurses on the cycle without ever hitting the memo.  The claim
says every such call terminates; the code does not. -/
theorem c1_cumulative_diverges_on_cycle (fuel : Nat) :
    calculateCumulativeTimesF fuel (some "a") c1nodes c1edges = none := by
  match fuel with
  | 0 => rfl
  | 1 => rfl
  | (f + 2) =>
    have hmin := c1_minTime_diverges (f + 2)
    simp only [c1nodes, c1edges] at hmin
    simp [calculateCumulativeTimesF, findAllAncestorsF, findAllAncestorsStep,
      hasInvalidAncestorF, hasInvalidStep, invList, ancList, c1nodes, c1edges,
      estTruthy, List.lookup, hmin]

/-- Claim C8: with no focal task both engine entry points return the empty
set/map, and a focal task whose status is done ("Done") or someday
("Deferred") makes `calculateCumulativeTimes` return the empty map. -/
theorem c8_no_focus_or_resolved_focus_empty :
    ∀ (fuel : Nat) (nodes : List TaskNode) (edges : List Edge),
      findFrontierTasksF fuel none nodes edges = some [] ∧
      calculateCumulativeTimesF fuel none nodes edges = some [] ∧
      (∀ sid nd, nodes.find? (fun n => n.id == sid) = some nd →
        (nd.data.status = "done" ∨ nd.data.status = "someday") →
        calculateCumulativeTimesF fuel (some sid) nodes edges = some []) := by
  intro fuel nodes edges
  refine ⟨rfl, rfl, ?_⟩
  intro sid nd hfind hres
  simp only [calculateCumulativeTimesF, hfind]
  rcases hres with h | h <;> simp [h]

/-- Witness for C8 on a concrete snapshot with a done focal node. -/
theorem c8_no_focus_or_resolved_focus_empty_witness :
    calculateCumulativeTimesF 5 (some "z")
      [⟨"z", ⟨"done", some 1, "days"⟩⟩] [] = some [] :=
  (c8_no_focus_or_resolved_focus_empty 5 [⟨"z", ⟨"done", some 1, "days"⟩⟩]
    []).2.2 "z" ⟨"z", ⟨"done", some 1, "days"⟩⟩ (by decide) (Or.inl rfl)

/-- The unit-selection rule exactly as claim C9 words it: the largest unit
whose rendered magnitude (the value rounded to one decimal) is at least 1,
with days as the fallback.  Rendered magnitude ≥ 1 is `round1Num _ ≥ 10`. -/
def formatTimeSpecRounded (days : ℚ) : String :=
  if days ≤ 0 then ""
  else if 10 ≤ round1Num (days / 20) then formatUnit (days / 20) "month" "months"
  else if 10 ≤ round1Num (days / 5) then formatUnit (days / 5) "week" "weeks"
  else formatUnit days "day" "days"

/-- The amended unit-selection rule: the largest unit whose raw magnitude
`days / size` is at least 1 (not the rounded magnitude), days as fallback. -/
def formatTimeAmended (days : ℚ) : String :=
  if days ≤ 0 then ""
  else if 1 ≤ days / 20 then formatUnit (days / 20) "month" "months"
  else if 1 ≤ days / 5 then formatUnit (days / 5) "week" "weeks"
  else formatUnit days "day" "days"

/-- Counterexample to claim C9 as stated: at 19 days the rendered month
magnitude is 19/20 = 0.95, which rounds to 1.0 ≥ 1, so the claimed rule
picks "1 month", but the code compares the raw value 19 < 20 and renders
"3.8 weeks". -/
theorem c9_counterexample :
    formatTime 19 = "3.8 weeks" ∧ formatTimeSpecRounded 19 = "1 month" ∧
      formatTime 19 ≠ formatTimeSpecRounded 19 := by
  have e5 : ((19 : ℚ) / 5) = Rat.divInt 19 5 := by
    rw [Rat.divInt_eq_div]; norm_num
  have e20 : ((19 : ℚ) / 20) = Rat.divInt 19 20 := by
    rw [Rat.divInt_eq_div]; norm_num
  refine ⟨?_, ?_, ?_⟩ <;>
    simp only [formatTime, formatTimeSpecRounded, e5, e20] <;> decide

/-- Claim C9 as amended: for positive day counts the code renders with the
largest unit whose raw magnitude is ≥ 1 (months at ≥ 20 days, weeks at
≥ 5 days, else days); value rounding to one decimal, dropping of a trailing
".0" and pluralisation exactly when the rendered value differs from 1 are
shared with the claimed rule (`formatUnit`). -/
theorem c9_largest_unit_amended :
    ∀ d : ℚ, 0 < d → formatTime d = formatTimeAmended d := by
  intro d _
  have h20 : (1 ≤ d / 20) ↔ (20 ≤ d) := by
    rw [le_div_iff₀ (by norm_num : (0 : ℚ) < 20)]
    constructor <;> intro h <;> linarith
  have h5 : (1 ≤ d / 5) ↔ (5 ≤ d) := by
    rw [le_div_iff₀ (by norm_num : (0 : ℚ) < 5)]
    constructor <;> intro h <;> linarith
  simp only [formatTime, formatTimeAmended, h20, h5]

/-- Witness for the amended C9 at 12 days ("2.4 weeks"). -/
theorem c9_largest_unit_amended_witness :
    (0 : ℚ) < 12 ∧ formatTime 12 = formatTimeAmended 12 :=
  ⟨by norm_num, c9_largest_unit_amended 12 (by norm_num)⟩

def c2nodes : List TaskNode :=
  [⟨"f", ⟨"todo", some 1, "days"⟩⟩, ⟨"g", ⟨"todo", none, "days"⟩⟩]

def c2edges : List Edge := [⟨"g", "f"⟩]

/-- Counterexample to claim C2 as stated: the focal node `f` is active with
an estimate, its only ancestor `g` is active with no estimate (so the
poison hypothesis holds), yet the returned map has no entry at all for `f`
— `g` gets the Unknown-sentinel entry and `f` is simply absent, not mapped
to the Unknown sentinel. -/
theorem c2_counterexample :
    calculateCumulativeTimesF 9 (some "f") c2nodes c2edges =
      some [("g", ⟨none, none, true⟩)] ∧
    List.lookup "f" [("g", (⟨none, none, true⟩ : TimeEntry))] = none := by
  refine ⟨by decide, by decide⟩

def c7nodes : List TaskNode :=
  [⟨"a", ⟨"todo", some 1, "days"⟩⟩, ⟨"b", ⟨"todo", some 1, "days"⟩⟩]

def c7edges : List Edge := [⟨"ghost", "a"⟩, ⟨"a", "b"⟩]

/-- Counterexample to claim C7 as stated: the edge ghost → a has a dangling
prerequisite.  Per the claim, `a` (active, estimated, an ancestor of the
focal `b`) should still be a frontier task and `a`, `b` should keep numeric
entries.  In fact the frontier is empty (the dangling dependency makes `a`
non-executable) and the times map is empty (`calculateMinTime` returns the
invalid sentinel for `a` and `b`, dropping both entries). -/
theorem c7_counterexample :
    c7nodes.find? (fun n => n.id == "ghost") = none ∧
    findFrontierTasksF 9 (some "b") c7nodes c7edges = some [] ∧
    calculateCumulativeTimesF 9 (some "b") c7nodes c7edges = some [] := by
  refine ⟨by decide, by decide, by decide⟩

/-
Generic lemmas about the traversal helpers, and DFS correctness of the
unbounded ancestor walk.
-/

theorem contains_mem {l : List String} {a : String}
    (h : l.contains a = true) : a ∈ l := by
  simpa using h

theorem not_contains_not_mem {l : List String} {a : String}
    (h : l.contains a = false) : a ∉ l := by
  simpa using h

theorem ancList_grow {go : String → List String → Option (List String)}
    (hgo : ∀ s v r, go s v = some r → ∀ x ∈ v, x ∈ r) :
    ∀ (pending : List Edge) (v r : List String),
      ancList go pending v = some r → ∀ x ∈ v, x ∈ r := by
  intro pending
  induction pending with
  | nil =>
    intro v r h x hx
    simp only [ancList, Option.some.injEq] at h
    exact h ▸ hx
  | cons e rest ih =>
    intro v r h x hx
    simp only [ancList] at h
    cases heq : go e.source v with
    | none => simp [heq] at h
    | some v2 =>
      rw [heq] at h
      exact ih v2 r h x (hgo _ _ _ heq x hx)

theorem findAncestorsF_grow :
    ∀ (fuel : Nat) (t : String) (es : List Edge) (v r : List String),
      findAncestorsF fuel t es v = some r → ∀ x ∈ v, x ∈ r := by
  intro fuel
  induction fuel with
  | zero => intro t es v r h; simp [findAncestorsF] at h
  | succ f ih =>
    intro t es v r h x hx
    simp only [findAncestorsF, findAncestorsStep] at h
    split at h
    · simp only [Option.some.injEq] at h; exact h ▸ hx
    · exact ancList_grow (fun s v2 r2 hh => ih s es v2 r2 hh) _ _ _ h x
        (List.mem_append_left _ hx)

theorem findAncestorsF_self :
    ∀ (fuel : Nat) (t : String) (es : List Edge) (v r : List String),
      findAncestorsF fuel t es v = some r → t ∈ r := by
  intro fuel
  induction fuel with
  | zero => intro t es v r h; simp [findAncestorsF] at h
  | succ f ih =>
    intro t es v r h
    simp only [findAncestorsF, findAncestorsStep] at h
    split at h
    · next hc =>
      simp only [Option.some.injEq] at h
      exact h ▸ contains_mem hc
    · exact ancList_grow (fun s v2 r2 hh => findAncestorsF_grow f s es v2 r2 hh)
        _ _ _ h t (List.mem_append_right _ (List.mem_singleton.mpr rfl))

theorem ancList_nodup {go : String → List String → Option (List String)}
    (hgo : ∀ s v r, go s v = some r → v.Nodup → r.Nodup) :
    ∀ (pending : List Edge) (v r : List String),
      ancList go pending v = some r → v.Nodup → r.Nodup := by
  intro pending
  induction pending with
  | nil =>
    intro v r h hv
    simp only [ancList, Option.some.injEq] at h
    exact h ▸ hv
  | cons e rest ih =>
    intro v r h hv
    simp only [ancList] at h
    cases heq : go e.source v with
    | none => simp [heq] at h
    | some v2 =>
      rw [heq] at h
      exact ih v2 r h (hgo _ _ _ heq hv)

theorem findAncestorsF_nodup :
    ∀ (fuel : Nat) (t : String) (es : List Edge) (v r : List String),
      findAncestorsF fuel t es v = some r → v.Nodup → r.Nodup := by
  intro fuel
  induction fuel with
  | zero => intro t es v r h; simp [findAncestorsF] at h
  | succ f ih =>
    intro t es v r h hv
    simp only [findAncestorsF, findAncestorsStep] at h
    split at h
    · simp only [Option.some.injEq] at h; exact h ▸ hv
    · next hc =>
      refine ancList_nodup (fun s v2 r2 hh => ih s es v2 r2 hh) _ _ _ h ?_
      simp [List.nodup_append, hv, not_contains_not_mem (by simpa using hc)]

theorem ancList_sound {go : String → List String → Option (List String)}
    {Q : String → Prop} :
    ∀ (pending : List Edge) (v r : List String),
      (∀ e ∈ pending, ∀ v2 r2, go e.source v2 = some r2 →
        ∀ x ∈ r2, x ∈ v2 ∨ Q x) →
      ancList go pending v = some r → ∀ x ∈ r, x ∈ v ∨ Q x := by
  intro pending
  induction pending with
  | nil =>
    intro v r _ h x hx
    simp only [ancList, Option.some.injEq] at h
    exact Or.inl (h ▸ hx)
  | cons e rest ih =>
    intro v r hgo h x hx
    simp only [ancList] at h
    cases heq : go e.source v with
    | none => simp [heq] at h
    | some v2 =>
      rw [heq] at h
      rcases ih v2 r (fun e2 he2 => hgo e2 (List.mem_cons_of_mem _ he2)) h x hx
        with h1 | h2
      · exact hgo e (List.mem_cons_self _ _) _ _ heq x h1
      · exact Or.inr h2

theorem findAncestorsF_sound :
    ∀ (fuel : Nat) (t : String) (es : List Edge) (v r : List String),
      findAncestorsF fuel t es v = some r →
      ∀ x ∈ r, x ∈ v ∨ Reaches es x t := by
  intro fuel
  induction fuel with
  | zero => intro t es v r h; simp [findAncestorsF] at h
  | succ f ih =>
    intro t es v r h x hxr
    simp only [findAncestorsF, findAncestorsStep] at h
    split at h
    · simp only [Option.some.injEq] at h
      exact Or.inl (h ▸ hxr)
    · have hs := ancList_sound (Q := fun y => Reaches es y t) _ _ _ ?_ h x hxr
      · rcases hs with hv | hq
        · rcases List.mem_append.mp hv with h1 | h2
          · exact Or.inl h1
          · have hx : x = t := by simpa using h2
            exact Or.inr (hx ▸ Relation.ReflTransGen.refl)
        · exact Or.inr hq
      · intro e he v2 r2 hgo2 x2 hx2
        rcases ih e.source es v2 r2 hgo2 x2 hx2 with h1 | h2
        · exact Or.inl h1
        · refine Or.inr (h2.trans (Relation.ReflTransGen.single ?_))
          rcases List.mem_filter.mp he with ⟨hmem, htgt⟩
          exact ⟨e, hmem, rfl, by simpa using htgt⟩

/-- `y`'s prerequisites are all present in `r`. -/
def ClosedIn (es : List Edge) (r : List String) (y : String) : Prop :=
  ∀ e ∈ es, e.target = y → e.source ∈ r

theorem ClosedIn_mono {es : List Edge} {r r2 : List String} {y : String}
    (hsub : ∀ x ∈ r, x ∈ r2) (h : ClosedIn es r y) : ClosedIn es r2 y :=
  fun e he ht => hsub _ (h e he ht)

theorem ancList_closure {go : String → List String → Option (List String)}
    {es : List Edge}
    (hgrow : ∀ s v2 r2, go s v2 = some r2 → ∀ x ∈ v2, x ∈ r2)
    (hself : ∀ s v2 r2, go s v2 = some r2 → s ∈ r2)
    (hcl : ∀ s v2 r2, go s v2 = some r2 → ∀ y ∈ r2, y ∈ v2 ∨ ClosedIn es r2 y) :
    ∀ (pending : List Edge) (v r : List String),
      ancList go pending v = some r →
      (∀ y ∈ r, y ∈ v ∨ ClosedIn es r y) ∧ (∀ e ∈ pending, e.source ∈ r) := by
  intro pending
  induction pending with
  | nil =>
    intro v r h
    simp only [ancList, Option.some.injEq] at h
    exact ⟨fun y hy => Or.inl (h ▸ hy), by simp⟩
  | cons e rest ih =>
    intro v r h
    simp only [ancList] at h
    cases heq : go e.source v with
    | none => simp [heq] at h
    | some v2 =>
      rw [heq] at h
      obtain ⟨ihc, ihp⟩ := ih v2 r h
      have hv2r : ∀ x ∈ v2, x ∈ r := ancList_grow hgrow _ _ _ h
      constructor
      · intro y hy
        rcases ihc y hy with h1 | h2
        · rcases hcl _ _ _ heq y h1 with h3 | h4
          · exact Or.inl h3
          · exact Or.inr (ClosedIn_mono hv2r h4)
        · exact Or.inr h2
      · intro e2 he2
        rcases List.mem_cons.mp he2 with h1 | h2
        · exact h1 ▸ hv2r _ (hself _ _ _ heq)
        · exact ihp e2 h2

theorem findAncestorsF_closed :
    ∀ (fuel : Nat) (t : String) (es : List Edge) (v r : List String),
      findAncestorsF fuel t es v = some r →
      ∀ y ∈ r, y ∈ v ∨ ClosedIn es r y := by
  intro fuel
  induction fuel with
  | zero => intro t es v r h; simp [findAncestorsF] at h
  | succ f ih =>
    intro t es v r h y hy
    simp only [findAncestorsF, findAncestorsStep] at h
    split at h
    · simp only [Option.some.injEq] at h
      exact Or.inl (h ▸ hy)
    · obtain ⟨hcl, hpl⟩ := ancList_closure
        (fun s v2 r2 hh => findAncestorsF_grow f s es v2 r2 hh)
        (fun s v2 r2 hh => findAncestorsF_self f s es v2 r2 hh)
        (fun s v2 r2 hh => ih s es v2 r2 hh) _ _ _ h
      rcases hcl y hy with h1 | h2
      · rcases List.mem_append.mp h1 with h3 | h4
        · exact Or.inl h3
        · have hyt : y = t := by simpa using h4
          subst hyt
          refine Or.inr (fun e he ht => hpl e ?_)
          exact List.mem_filter.mpr ⟨he, by simpa using ht⟩
      · exact Or.inr h2

theorem findAncestorsF_complete :
    ∀ (fuel : Nat) (t : String) (es : List Edge) (r : List String),
      findAncestorsF fuel t es [] = some r →
      ∀ x, Reaches es x t → x ∈ r := by
  intro fuel t es r h x hreach
  induction hreach using Relation.ReflTransGen.head_induction_on with
  | refl => exact findAncestorsF_self fuel t es [] r h
  | @head a c hstep _ ihx =>
    obtain ⟨e, he, hsrc, htgt⟩ := hstep
    rcases findAncestorsF_closed fuel t es [] r h c ihx with h0 | hc
    · simp at h0
    · exact hsrc ▸ hc e he htgt

theorem findAncestorsF_mem_iff
    {fuel : Nat} {t : String} {es : List Edge} {r : List String}
    (h : findAncestorsF fuel t es [] = some r) (x : String) :
    x ∈ r ↔ Reaches es x t := by
  constructor
  · intro hx
    rcases findAncestorsF_sound fuel t es [] r h x hx with h0 | h1
    · simp at h0
    · exact h1
  · exact findAncestorsF_complete fuel t es r h x

/-- Claim C3: in a snapshot with no dangling edge endpoints, a node `n` in
the unbounded ancestor cone of the focal task is in the frontier set iff it
is active (not done/someday) and every incoming edge comes from a
done/someday prerequisite; in particular an active ancestor with no
incoming edges is always in the frontier. -/
theorem c3_frontier_membership_iff :
    ∀ (fuel : Nat) (nodes : List TaskNode) (edges : List Edge)
      (focal n : String) (fr : List String) (nd : TaskNode),
      NoDangling nodes edges →
      findFrontierTasksF fuel (some focal) nodes edges = some fr →
      n ≠ focal → Reaches edges n focal →
      nodes.find? (fun x => x.id == n) = some nd →
      ((n ∈ fr ↔
        ((nd.data.status ≠ "done" ∧ nd.data.status ≠ "someday") ∧
          ∀ e ∈ edges, e.target = n →
            ∃ pd, nodes.find? (fun x => x.id == e.source) = some pd ∧
              (pd.data.status = "done" ∨ pd.data.status = "someday"))) ∧
       (((∀ e ∈ edges, e.target ≠ n) ∧ nd.data.status ≠ "done" ∧
          nd.data.status ≠ "someday") → n ∈ fr)) := by
  intro fuel nodes edges focal n fr nd _ h hne hreach hnode
  simp only [findFrontierTasksF] at h
  cases hanc : findAncestorsF fuel focal edges [] with
  | none => rw [hanc] at h; cases h
  | some anc =>
    rw [hanc] at h
    simp only [Option.some.injEq] at h
    subst h
    have hancd : anc.Nodup :=
      findAncestorsF_nodup fuel focal edges [] anc hanc List.nodup_nil
    have hmem : n ∈ anc.erase focal := by
      rw [List.Nodup.mem_erase_iff hancd]
      exact ⟨hne, (findAncestorsF_mem_iff hanc n).mpr hreach⟩
    have hiff : n ∈ (anc.erase focal).filter (fun ancestorId =>
        match nodes.find? (fun x => x.id == ancestorId) with
        | none => false
        | some ancestorNode =>
          ancestorNode.data.status != "done" &&
            ancestorNode.data.status != "someday" &&
            isTaskExecutable ancestorId edges nodes) ↔
        ((nd.data.status ≠ "done" ∧ nd.data.status ≠ "someday") ∧
          ∀ e ∈ edges, e.target = n →
            ∃ pd, nodes.find? (fun x => x.id == e.source) = some pd ∧
              (pd.data.status = "done" ∨ pd.data.status = "someday")) := by
      rw [List.mem_filter]
      simp only [hnode, hmem, true_and, isTaskExecutable, Bool.and_eq_true,
        bne_iff_ne, ne_eq, List.all_eq_true]
      constructor
      · rintro ⟨⟨h1, h2⟩, h3⟩
        refine ⟨⟨h1, h2⟩, ?_⟩
        intro e he ht
        have hall := h3 e (List.mem_filter.mpr ⟨he, by simpa using ht⟩)
        cases hfd : nodes.find? (fun x => x.id == e.source) with
        | none => simp [hfd] at hall
        | some pd =>
          rw [hfd] at hall
          exact ⟨pd, rfl, by simpa using hall⟩
      · rintro ⟨⟨h1, h2⟩, h3⟩
        refine ⟨⟨h1, h2⟩, ?_⟩
        intro e he
        rcases List.mem_filter.mp he with ⟨hmem2, htgt⟩
        obtain ⟨pd, hfd, hst⟩ := h3 e hmem2 (by simpa using htgt)
        rw [hfd]
        rcases hst with h4 | h4 <;> simp [h4]
    refine ⟨hiff, ?_⟩
    rintro ⟨hnoin, hs1, hs2⟩
    refine hiff.mpr ⟨⟨hs1, hs2⟩, ?_⟩
    intro e he ht
    exact absurd ht (hnoin e he)

def c3nodes : List TaskNode :=
  [⟨"A", ⟨"done", none, "days"⟩⟩, ⟨"B", ⟨"todo", some 2, "days"⟩⟩,
   ⟨"C", ⟨"todo", some 3, "days"⟩⟩]

def c3edges : List Edge := [⟨"A", "C"⟩, ⟨"B", "C"⟩]

/-- Witness for C3 on the spec's concrete scenario: focal C with done
prerequisite A and active prerequisite B; B is an ancestor with no incoming
edges and lands in the frontier. -/
theorem c3_frontier_membership_iff_witness :
    NoDangling c3nodes c3edges ∧
    findFrontierTasksF 5 (some "C") c3nodes c3edges = some ["B"] ∧
    "B" ∈ (["B"] : List String) := by
  refine ⟨by unfold NoDangling; decide, by decide, ?_⟩
  have h := c3_frontier_membership_iff 5 c3nodes c3edges "C" "B" ["B"]
    ⟨"B", ⟨"todo", some 2, "days"⟩⟩ (by unfold NoDangling; decide) (by decide)
    (by decide)
    (Relation.ReflTransGen.single ⟨⟨"B", "C"⟩, by decide, rfl, rfl⟩)
    (by decide)
  refine h.1.mpr ⟨⟨by decide, by decide⟩, ?_⟩
  intro e he ht
  fin_cases he <;> simp_all

/-
DFS correctness of the terminating ancestor walk (`findAllAncestors`).
-/

theorem TReach_trans {nodes : List TaskNode} {es : List Edge} {a b c : String}
    (h1 : TReach nodes es a b) (h2 : TReach nodes es b c) :
    TReach nodes es a c := by
  induction h2 with
  | refl => exact h1
  | step _ hfind hd hs he ht ih => exact TReach.step ih hfind hd hs he ht

theorem findAllAncestorsF_grow :
    ∀ (fuel : Nat) (n : String) (nodes : List TaskNode) (es : List Edge)
      (v r : List String),
      findAllAncestorsF fuel n nodes es v = some r → ∀ x ∈ v, x ∈ r := by
  intro fuel
  induction fuel with
  | zero => intro n nodes es v r h; simp [findAllAncestorsF] at h
  | succ f ih =>
    intro n nodes es v r h x hx
    simp only [findAllAncestorsF, findAllAncestorsStep] at h
    split at h
    · simp only [Option.some.injEq] at h; exact h ▸ hx
    · split at h
      · simp only [Option.some.injEq] at h
        exact h ▸ List.mem_append_left _ hx
      · split at h
        · simp only [Option.some.injEq] at h
          exact h ▸ List.mem_append_left _ hx
        · exact ancList_grow (fun s v2 r2 hh => ih s nodes es v2 r2 hh) _ _ _ h
            x (List.mem_append_left _ hx)

theorem findAllAncestorsF_self :
    ∀ (fuel : Nat) (n : String) (nodes : List TaskNode) (es : List Edge)
      (v r : List String),
      findAllAncestorsF fuel n nodes es v = some r → n ∈ r := by
  intro fuel
  induction fuel with
  | zero => intro n nodes es v r h; simp [findAllAncestorsF] at h
  | succ f ih =>
    intro n nodes es v r h
    simp only [findAllAncestorsF, findAllAncestorsStep] at h
    split at h
    · next hc =>
      simp only [Option.some.injEq] at h
      exact h ▸ contains_mem hc
    · have hn : n ∈ v ++ [n] :=
        List.mem_append_right _ (List.mem_singleton.mpr rfl)
      split at h
      · simp only [Option.some.injEq] at h; exact h ▸ hn
      · split at h
        · simp only [Option.some.injEq] at h; exact h ▸ hn
        · exact ancList_grow
            (fun s v2 r2 hh => findAllAncestorsF_grow f s nodes es v2 r2 hh)
            _ _ _ h n hn

theorem findAllAncestorsF_nodup :
    ∀ (fuel : Nat) (n : String) (nodes : List TaskNode) (es : List Edge)
      (v r : List String),
      findAllAncestorsF fuel n nodes es v = some r → v.Nodup → r.Nodup := by
  intro fuel
  induction fuel with
  | zero => intro n nodes es v r h; simp [findAllAncestorsF] at h
  | succ f ih =>
    intro n nodes es v r h hv
    simp only [findAllAncestorsF, findAllAncestorsStep] at h
    split at h
    · simp only [Option.some.injEq] at h; exact h ▸ hv
    · next hc =>
      have hvn : (v ++ [n]).Nodup := by
        simp [List.nodup_append, hv, not_contains_not_mem (by simpa using hc)]
      split at h
      · simp only [Option.some.injEq] at h; exact h ▸ hvn
      · split at h
        · simp only [Option.some.injEq] at h; exact h ▸ hvn
        · exact ancList_nodup (fun s v2 r2 hh => ih s nodes es v2 r2 hh) _ _ _ h
            hvn

theorem findAllAncestorsF_sound :
    ∀ (fuel : Nat) (n : String) (nodes : List TaskNode) (es : List Edge)
      (v r : List String),
      findAllAncestorsF fuel n nodes es v = some r →
      ∀ x ∈ r, x ∈ v ∨ TReach nodes es n x := by
  intro fuel
  induction fuel with
  | zero => intro n nodes es v r h; simp [findAllAncestorsF] at h
  | succ f ih =>
    intro n nodes es v r h x hxr
    simp only [findAllAncestorsF, findAllAncestorsStep] at h
    split at h
    · simp only [Option.some.injEq] at h
      exact Or.inl (h ▸ hxr)
    · have hbase : ∀ y, y ∈ v ++ [n] → y ∈ v ∨ TReach nodes es n y := by
        intro y hy
        rcases List.mem_append.mp hy with h1 | h2
        · exact Or.inl h1
        · have : y = n := by simpa using h2
          exact Or.inr (this ▸ TReach.refl)
      split at h
      · simp only [Option.some.injEq] at h
        exact hbase x (h ▸ hxr)
      · next node hfind =>
        split at h
        · simp only [Option.some.injEq] at h
          exact hbase x (h ▸ hxr)
        · next hact =>
          have hs := ancList_sound (Q := fun y => TReach nodes es n y) _ _ _ ?_
            h x hxr
          · rcases hs with hv2 | hq
            · exact hbase x hv2
            · exact Or.inr hq
          · intro e he v2 r2 hgo2 x2 hx2
            rcases ih e.source nodes es v2 r2 hgo2 x2 hx2 with h1 | h2
            · exact Or.inl h1
            · refine Or.inr (TReach_trans ?_ h2)
              rcases List.mem_filter.mp he with ⟨hmem, htgt⟩
              simp only [Bool.or_eq_true, beq_iff_eq, not_or] at hact
              exact TReach.step TReach.refl hfind hact.1 hact.2 hmem
                (by simpa using htgt)

/-- Terminating-walk closure: if `y`'s node exists and is active, all of
`y`'s prerequisites are in `r`. -/
def TClosedIn (nodes : List TaskNode) (es : List Edge) (r : List String)
    (y : String) : Prop :=
  ∀ nd, nodes.find? (fun x => x.id == y) = some nd →
    nd.data.status ≠ "done" → nd.data.status ≠ "someday" →
    ∀ e ∈ es, e.target = y → e.source ∈ r

theorem TClosedIn_mono {nodes : List TaskNode} {es : List Edge}
    {r r2 : List String} {y : String}
    (hsub : ∀ x ∈ r, x ∈ r2) (h : TClosedIn nodes es r y) :
    TClosedIn nodes es r2 y :=
  fun nd hf hd hs e he ht => hsub _ (h nd hf hd hs e he ht)

theorem ancList_closureT {go : String → List String → Option (List String)}
    {nodes : List TaskNode} {es : List Edge}
    (hgrow : ∀ s v2 r2, go s v2 = some r2 → ∀ x ∈ v2, x ∈ r2)
    (hself : ∀ s v2 r2, go s v2 = some r2 → s ∈ r2)
    (hcl : ∀ s v2 r2, go s v2 = some r2 →
      ∀ y ∈ r2, y ∈ v2 ∨ TClosedIn nodes es r2 y) :
    ∀ (pending : List Edge) (v r : List String),
      ancList go pending v = some r →
      (∀ y ∈ r, y ∈ v ∨ TClosedIn nodes es r y) ∧
        (∀ e ∈ pending, e.source ∈ r) := by
  intro pending
  induction pending with
  | nil =>
    intro v r h
    simp only [ancList, Option.some.injEq] at h
    exact ⟨fun y hy => Or.inl (h ▸ hy), by simp⟩
  | cons e rest ih =>
    intro v r h
    simp only [ancList] at h
    cases heq : go e.source v with
    | none => simp [heq] at h
    | some v2 =>
      rw [heq] at h
      obtain ⟨ihc, ihp⟩ := ih v2 r h
      have hv2r : ∀ x ∈ v2, x ∈ r := ancList_grow hgrow _ _ _ h
      constructor
      · intro y hy
        rcases ihc y hy with h1 | h2
        · rcases hcl _ _ _ heq y h1 with h3 | h4
          · exact Or.inl h3
          · exact Or.inr (TClosedIn_mono hv2r h4)
        · exact Or.inr h2
      · intro e2 he2
        rcases List.mem_cons.mp he2 with h1 | h2
        · exact h1 ▸ hv2r _ (hself _ _ _ heq)
        · exact ihp e2 h2

theorem findAllAncestorsF_closed :
    ∀ (fuel : Nat) (n : String) (nodes : List TaskNode) (es : List Edge)
      (v r : List String),
      findAllAncestorsF fuel n nodes es v = some r →
      ∀ y ∈ r, y ∈ v ∨ TClosedIn nodes es r y := by
  intro fuel
  induction fuel with
  | zero => intro n nodes es v r h; simp [findAllAncestorsF] at h
  | succ f ih =>
    intro n nodes es v r h y hy
    simp only [findAllAncestorsF, findAllAncestorsStep] at h
    split at h
    · simp only [Option.some.injEq] at h
      exact Or.inl (h ▸ hy)
    · split at h
      · next hfind =>
        simp only [Option.some.injEq] at h
        rcases List.mem_append.mp (h ▸ hy) with h1 | h2
        · exact Or.inl h1
        · have hyn : y = n := by simpa using h2
          subst hyn
          exact Or.inr (fun nd hf => absurd hf (by simp [hfind]))
      · next node hfind =>
        split at h
        · next hres =>
          simp only [Option.some.injEq] at h
          rcases List.mem_append.mp (h ▸ hy) with h1 | h2
          · exact Or.inl h1
          · have hyn : y = n := by simpa using h2
            subst hyn
            refine Or.inr (fun nd hf hd hs e he ht => ?_)
            rw [hfind] at hf
            cases hf
            rcases Bool.or_eq_true_iff.mp hres with h3 | h3
            · exact absurd (by simpa using h3) hd
            · exact absurd (by simpa using h3) hs
        · obtain ⟨hcl, hpl⟩ := ancList_closureT
            (fun s v2 r2 hh => findAllAncestorsF_grow f s nodes es v2 r2 hh)
            (fun s v2 r2 hh => findAllAncestorsF_self f s nodes es v2 r2 hh)
            (fun s v2 r2 hh => ih s nodes es v2 r2 hh) _ _ _ h
          rcases hcl y hy with h1 | h2
          · rcases List.mem_append.mp h1 with h3 | h4
            · exact Or.inl h3
            · have hyn : y = n := by simpa using h4
              subst hyn
              refine Or.inr (fun nd hf hd hs e he ht => hpl e ?_)
              exact List.mem_filter.mpr ⟨he, by simpa using ht⟩
          · exact Or.inr h2

theorem findAllAncestorsF_complete :
    ∀ (fuel : Nat) (root : String) (nodes : List TaskNode) (es : List Edge)
      (r : List String),
      findAllAncestorsF fuel root nodes es [] = some r →
      ∀ x, TReach nodes es root x → x ∈ r := by
  intro fuel root nodes es r h x hreach
  induction hreach with
  | refl => exact findAllAncestorsF_self fuel root nodes es [] r h
  | step htr hfind hd hs he ht ih =>
    rcases findAllAncestorsF_closed fuel root nodes es [] r h _ ih with h0 | hc
    · simp at h0
    · exact hc _ hfind hd hs _ he ht

theorem findAllAncestorsF_mem_iff
    {fuel : Nat} {root : String} {nodes : List TaskNode} {es : List Edge}
    {r : List String}
    (h : findAllAncestorsF fuel root nodes es [] = some r) (x : String) :
    x ∈ r ↔ TReach nodes es root x := by
  constructor
  · intro hx
    rcases findAllAncestorsF_sound fuel root nodes es [] r h x hx with h0 | h1
    · simp at h0
    · exact h1
  · exact findAllAncestorsF_complete fuel root nodes es r h x

/-
Arithmetic helpers and properties of the specification recurrence.
-/

theorem convertToDays_nonneg (v : ℚ) (u : String) : 0 ≤ convertToDays v u := by
  unfold convertToDays
  split
  · exact le_refl 0
  · next hv =>
    have hv2 : 0 ≤ v := le_of_lt (lt_of_not_le hv)
    split
    · positivity
    · split
      · positivity
      · exact hv2

theorem getOwnTime_nonneg (nd : NodeData) : 0 ≤ getOwnTime nd :=
  convertToDays_nonneg _ _

theorem foldl_max_init : ∀ (ys : List ℚ) (a : ℚ), a ≤ ys.foldl max a := by
  intro ys
  induction ys with
  | nil => intro a; exact le_refl a
  | cons y ys ih =>
    intro a
    exact le_trans (le_max_left a y) (ih (max a y))

theorem foldl_max_mem : ∀ (ys : List ℚ) (a x : ℚ), x ∈ ys →
    x ≤ ys.foldl max a := by
  intro ys
  induction ys with
  | nil => intro a x hx; simp at hx
  | cons y ys ih =>
    intro a x hx
    rcases List.mem_cons.mp hx with h1 | h2
    · subst h1
      show x ≤ List.foldl max (max a x) ys
      exact le_trans (le_max_right a x) (foldl_max_init ys (max a x))
    · show x ≤ List.foldl max (max a y) ys
      exact ih (max a y) x h2

theorem le_listMax : ∀ (l : List ℚ) (x : ℚ), x ∈ l → x ≤ listMax l := by
  intro l x hx
  cases l with
  | nil => simp at hx
  | cons y ys =>
    rcases List.mem_cons.mp hx with h1 | h2
    · exact h1 ▸ foldl_max_init ys y
    · exact foldl_max_mem ys y x h2

theorem foldl_max_le : ∀ (ys : List ℚ) (a c : ℚ), a ≤ c →
    (∀ x ∈ ys, x ≤ c) → ys.foldl max a ≤ c := by
  intro ys
  induction ys with
  | nil => intro a c ha _; exact ha
  | cons y ys ih =>
    intro a c ha hys
    exact ih (max a y) c (max_le ha (hys y (List.mem_cons_self y ys)))
      (fun x hx => hys x (List.mem_cons_of_mem _ hx))

theorem listMax_le : ∀ (l : List ℚ) (c : ℚ), l ≠ [] → (∀ x ∈ l, x ≤ c) →
    listMax l ≤ c := by
  intro l c hne hall
  cases l with
  | nil => exact absurd rfl hne
  | cons y ys =>
    exact foldl_max_le ys y c (hall y (List.mem_cons_self y ys))
      (fun x hx => hall x (List.mem_cons_of_mem _ hx))

theorem listMax_nonneg : ∀ (l : List ℚ), l ≠ [] → (∀ x ∈ l, 0 ≤ x) →
    0 ≤ listMax l := by
  intro l hne hall
  cases l with
  | nil => exact absurd rfl hne
  | cons y ys =>
    exact le_trans (hall y (List.mem_cons_self y ys)) (foldl_max_init ys y)

theorem lookup_mem {β : Type} {l : List (String × β)} {k : String} {v : β}
    (h : List.lookup k l = some v) : (k, v) ∈ l := by
  induction l with
  | nil => simp at h
  | cons p rest ih =>
    obtain ⟨k2, v2⟩ := p
    simp only [List.lookup] at h
    cases hb : (k == k2) with
    | true =>
      simp only [hb] at h
      have hk : k = k2 := by simpa using hb
      obtain rfl : v2 = v := Option.some.inj h
      exact hk ▸ List.mem_cons_self _ _
    | false =>
      simp only [hb] at h
      exact List.mem_cons_of_mem _ (ih h)

theorem MemoOK_cons {nodes : List TaskNode} {edges : List Edge}
    {memo : MinMemo} {n : String} {t : Option ℚ}
    (hm : MemoOK nodes edges memo)
    (ht : ∃ g, criticalMinRecF g n nodes edges = some t) :
    MemoOK nodes edges ((n, t) :: memo) := by
  intro p hp
  rcases List.mem_cons.mp hp with h1 | h2
  · exact h1 ▸ ht
  · exact hm p h2

theorem CacheSound_cons {nodes : List TaskNode} {edges : List Edge}
    {cache : InvCache} {n : String} {b : Bool}
    (hc : CacheSound nodes edges cache)
    (hb : b = true → Invalid nodes edges n) :
    CacheSound nodes edges ((n, b) :: cache) := by
  intro p hp
  rcases List.mem_cons.mp hp with h1 | h2
  · exact h1 ▸ hb
  · exact hc p h2

theorem recList_mono_gen {go go2 : String → Option (Option ℚ)}
    (h : ∀ p t, go p = some t → go2 p = some t) :
    ∀ (ps : List String) (ts : List (Option ℚ)),
      recList go ps = some ts → recList go2 ps = some ts := by
  intro ps
  induction ps with
  | nil => intro ts hh; simpa [recList] using hh
  | cons p rest ih =>
    intro ts hh
    simp only [recList] at hh ⊢
    cases heq : go p with
    | none => simp [heq] at hh
    | some t =>
      rw [heq] at hh
      rw [h p t heq]
      cases hrest : recList go rest with
      | none => simp [hrest] at hh
      | some ts2 =>
        rw [hrest] at hh
        rw [ih ts2 hrest]
        exact hh

theorem recList_mem_right {go : String → Option (Option ℚ)} :
    ∀ (ps : List String) (ts : List (Option ℚ)),
      recList go ps = some ts → ∀ t ∈ ts, ∃ p ∈ ps, go p = some t := by
  intro ps
  induction ps with
  | nil =>
    intro ts h t ht
    simp only [recList, Option.some.injEq] at h
    subst h; simp at ht
  | cons p rest ih =>
    intro ts h t ht
    simp only [recList] at h
    cases heq : go p with
    | none => simp [heq] at h
    | some t1 =>
      rw [heq] at h
      cases hrest : recList go rest with
      | none => simp [hrest] at h
      | some ts2 =>
        rw [hrest] at h
        simp only [Option.some.injEq] at h
        subst h
        rcases List.mem_cons.mp ht with h1 | h2
        · exact ⟨p, List.mem_cons_self _ _, h1 ▸ heq⟩
        · obtain ⟨p2, hp2, hgo2⟩ := ih ts2 hrest t h2
          exact ⟨p2, List.mem_cons_of_mem _ hp2, hgo2⟩

theorem recList_mem_left {go : String → Option (Option ℚ)} :
    ∀ (ps : List String) (ts : List (Option ℚ)),
      recList go ps = some ts → ∀ p ∈ ps, ∃ t ∈ ts, go p = some t := by
  intro ps
  induction ps with
  | nil => intro ts h p hp; simp at hp
  | cons p1 rest ih =>
    intro ts h p hp
    simp only [recList] at h
    cases heq : go p1 with
    | none => simp [heq] at h
    | some t1 =>
      rw [heq] at h
      cases hrest : recList go rest with
      | none => simp [hrest] at h
      | some ts2 =>
        rw [hrest] at h
        simp only [Option.some.injEq] at h
        subst h
        rcases List.mem_cons.mp hp with h1 | h2
        · exact ⟨t1, List.mem_cons_self _ _, h1 ▸ heq⟩
        · obtain ⟨t2, ht2, hgo2⟩ := ih ts2 hrest p h2
          exact ⟨t2, List.mem_cons_of_mem _ ht2, hgo2⟩

theorem recList_length {go : String → Option (Option ℚ)} :
    ∀ (ps : List String) (ts : List (Option ℚ)),
      recList go ps = some ts → ts.length = ps.length := by
  intro ps
  induction ps with
  | nil => intro ts h; simp only [recList, Option.some.injEq] at h; simp [← h]
  | cons p rest ih =>
    intro ts h
    simp only [recList] at h
    cases heq : go p with
    | none => simp [heq] at h
    | some t1 =>
      rw [heq] at h
      cases hrest : recList go rest with
      | none => simp [hrest] at h
      | some ts2 =>
        rw [hrest] at h
        simp only [Option.some.injEq] at h
        subst h
        simp [ih ts2 hrest]

/-
Branch equations for `criticalMinRecStep` (convenient rewriting forms).
-/

theorem criticalMinRecStep_find_none (rec : String → Option (Option ℚ))
    {n : String} {nodes : List TaskNode} (edges : List Edge)
    (hf : nodes.find? (fun x => x.id == n) = none) :
    criticalMinRecStep rec n nodes edges = some none := by
  unfold criticalMinRecStep
  rw [hf]

theorem criticalMinRecStep_resolved (rec : String → Option (Option ℚ))
    {n : String} {nodes : List TaskNode} (edges : List Edge) {node : TaskNode}
    (hf : nodes.find? (fun x => x.id == n) = some node)
    (hres : (node.data.status == "done" || node.data.status == "someday") =
      true) :
    criticalMinRecStep rec n nodes edges = some (some 0) := by
  unfold criticalMinRecStep
  rw [hf]
  simp [hres]

theorem criticalMinRecStep_noest (rec : String → Option (Option ℚ))
    {n : String} {nodes : List TaskNode} (edges : List Edge) {node : TaskNode}
    (hf : nodes.find? (fun x => x.id == n) = some node)
    (hres : (node.data.status == "done" || node.data.status == "someday") =
      false)
    (htt : estTruthy node.data.estimatedTime = false) :
    criticalMinRecStep rec n nodes edges = some none := by
  unfold criticalMinRecStep
  rw [hf]
  simp [hres, htt]

theorem criticalMinRecStep_noparents (rec : String → Option (Option ℚ))
    {n : String} {nodes : List TaskNode} {edges : List Edge} {node : TaskNode}
    (hf : nodes.find? (fun x => x.id == n) = some node)
    (hres : (node.data.status == "done" || node.data.status == "someday") =
      false)
    (htt : estTruthy node.data.estimatedTime = true)
    (hpe : ((edges.filter (fun e => e.target == n)).map
      (fun e => e.source)).isEmpty = true) :
    criticalMinRecStep rec n nodes edges = some (some (getOwnTime node.data))
    := by
  unfold criticalMinRecStep
  rw [hf]
  simp [hres, htt, hpe]

theorem criticalMinRecStep_parents_none (rec : String → Option (Option ℚ))
    {n : String} {nodes : List TaskNode} {edges : List Edge} {node : TaskNode}
    (hf : nodes.find? (fun x => x.id == n) = some node)
    (hres : (node.data.status == "done" || node.data.status == "someday") =
      false)
    (htt : estTruthy node.data.estimatedTime = true)
    (hpe : ((edges.filter (fun e => e.target == n)).map
      (fun e => e.source)).isEmpty = false)
    (hrl : recList rec ((edges.filter (fun e => e.target == n)).map
      (fun e => e.source)) = none) :
    criticalMinRecStep rec n nodes edges = none := by
  unfold criticalMinRecStep
  rw [hf]
  simp [hres, htt, hpe, hrl]

theorem criticalMinRecStep_parents_some (rec : String → Option (Option ℚ))
    {n : String} {nodes : List TaskNode} {edges : List Edge} {node : TaskNode}
    {ts : List (Option ℚ)}
    (hf : nodes.find? (fun x => x.id == n) = some node)
    (hres : (node.data.status == "done" || node.data.status == "someday") =
      false)
    (htt : estTruthy node.data.estimatedTime = true)
    (hpe : ((edges.filter (fun e => e.target == n)).map
      (fun e => e.source)).isEmpty = false)
    (hrl : recList rec ((edges.filter (fun e => e.target == n)).map
      (fun e => e.source)) = some ts) :
    criticalMinRecStep rec n nodes edges =
      (if ts.any (fun t => t.isNone) then some none
       else some (some (getOwnTime node.data +
         max 0 (listMax (ts.map (fun t => t.getD 0)))))) := by
  unfold criticalMinRecStep
  rw [hf]
  simp [hres, htt, hpe, hrl]

theorem criticalMinRecF_mono :
    ∀ (g : Nat) (n : String) (nodes : List TaskNode) (edges : List Edge)
      (t : Option ℚ),
      criticalMinRecF g n nodes edges = some t →
      criticalMinRecF (g + 1) n nodes edges = some t := by
  intro g
  induction g with
  | zero => intro n nodes edges t h; simp [criticalMinRecF] at h
  | succ f ih =>
    intro n nodes edges t h
    have hh : criticalMinRecStep (fun p => criticalMinRecF f p nodes edges)
        n nodes edges = some t := h
    show criticalMinRecStep (fun p => criticalMinRecF (f + 1) p nodes edges)
        n nodes edges = some t
    cases hf : nodes.find? (fun x => x.id == n) with
    | none =>
      rw [criticalMinRecStep_find_none _ edges hf] at hh
      rw [criticalMinRecStep_find_none _ edges hf]
      exact hh
    | some node =>
      cases hres : (node.data.status == "done" ||
          node.data.status == "someday") with
      | true =>
        rw [criticalMinRecStep_resolved _ edges hf hres] at hh
        rw [criticalMinRecStep_resolved _ edges hf hres]
        exact hh
      | false =>
        cases htt : estTruthy node.data.estimatedTime with
        | false =>
          rw [criticalMinRecStep_noest _ edges hf hres htt] at hh
          rw [criticalMinRecStep_noest _ edges hf hres htt]
          exact hh
        | true =>
          cases hpe : ((edges.filter (fun e => e.target == n)).map
              (fun e => e.source)).isEmpty with
          | true =>
            rw [criticalMinRecStep_noparents _ hf hres htt hpe] at hh
            rw [criticalMinRecStep_noparents _ hf hres htt hpe]
            exact hh
          | false =>
            cases hrl : recList (fun p => criticalMinRecF f p nodes edges)
                ((edges.filter (fun e => e.target == n)).map
                  (fun e => e.source)) with
            | none =>
              rw [criticalMinRecStep_parents_none _ hf hres htt hpe hrl] at hh
              cases hh
            | some ts =>
              rw [criticalMinRecStep_parents_some _ hf hres htt hpe hrl] at hh
              rw [criticalMinRecStep_parents_some _ hf hres htt hpe
                (recList_mono_gen (fun p t2 hp => ih p nodes edges t2 hp) _ _
                  hrl)]
              exact hh

theorem criticalMinRecF_le {g g2 : Nat} (hle : g ≤ g2) :
    ∀ {n : String} {nodes : List TaskNode} {edges : List Edge} {t : Option ℚ},
      criticalMinRecF g n nodes edges = some t →
      criticalMinRecF g2 n nodes edges = some t := by
  induction hle with
  | refl => intro n nodes edges t h; exact h
  | step _ ih =>
    intro n nodes edges t h
    exact criticalMinRecF_mono _ _ _ _ _ (ih h)

theorem criticalMinRecF_det {g g2 : Nat} {n : String} {nodes : List TaskNode}
    {edges : List Edge} {t t2 : Option ℚ}
    (h1 : criticalMinRecF g n nodes edges = some t)
    (h2 : criticalMinRecF g2 n nodes edges = some t2) : t = t2 := by
  have h3 := criticalMinRecF_le (Nat.le_max_left g g2) h1
  have h4 := criticalMinRecF_le (Nat.le_max_right g g2) h2
  rw [h3] at h4
  exact (Option.some.injEq _ _).mp h4

theorem criticalMinRecF_nonneg :
    ∀ (g : Nat) (n : String) (nodes : List TaskNode) (edges : List Edge)
      (q : ℚ),
      criticalMinRecF g n nodes edges = some (some q) → 0 ≤ q := by
  intro g n nodes edges q h
  cases g with
  | zero => simp [criticalMinRecF] at h
  | succ f =>
    have hh : criticalMinRecStep (fun p => criticalMinRecF f p nodes edges)
        n nodes edges = some (some q) := h
    cases hf : nodes.find? (fun x => x.id == n) with
    | none =>
      rw [criticalMinRecStep_find_none _ edges hf] at hh
      simp at hh
    | some node =>
      cases hres : (node.data.status == "done" ||
          node.data.status == "someday") with
      | true =>
        rw [criticalMinRecStep_resolved _ edges hf hres] at hh
        simp only [Option.some.injEq] at hh
        exact hh ▸ le_refl 0
      | false =>
        cases htt : estTruthy node.data.estimatedTime with
        | false =>
          rw [criticalMinRecStep_noest _ edges hf hres htt] at hh
          simp at hh
        | true =>
          cases hpe : ((edges.filter (fun e => e.target == n)).map
              (fun e => e.source)).isEmpty with
          | true =>
            rw [criticalMinRecStep_noparents _ hf hres htt hpe] at hh
            simp only [Option.some.injEq] at hh
            exact hh ▸ getOwnTime_nonneg _
          | false =>
            cases hrl : recList (fun p => criticalMinRecF f p nodes edges)
                ((edges.filter (fun e => e.target == n)).map
                  (fun e => e.source)) with
            | none =>
              rw [criticalMinRecStep_parents_none _ hf hres htt hpe hrl] at hh
              cases hh
            | some ts =>
              rw [criticalMinRecStep_parents_some _ hf hres htt hpe hrl] at hh
              split at hh
              · simp at hh
              · simp only [Option.some.injEq] at hh
                exact hh ▸ add_nonneg (getOwnTime_nonneg _) (le_max_left 0 _)

/-
Branch equations for `calculateMinTimeStep`.
-/

theorem calculateMinTimeStep_memoHit
    (rec : String → MinMemo → Option (Option ℚ × MinMemo))
    {n : String} (nodes : List TaskNode) (edges : List Edge) {memo : MinMemo}
    {v : Option ℚ} (hlk : List.lookup n memo = some v) :
    calculateMinTimeStep rec n nodes edges memo = some (v, memo) := by
  unfold calculateMinTimeStep
  rw [hlk]

theorem calculateMinTimeStep_find_none
    (rec : String → MinMemo → Option (Option ℚ × MinMemo))
    {n : String} {nodes : List TaskNode} (edges : List Edge) {memo : MinMemo}
    (hlk : List.lookup n memo = none)
    (hf : nodes.find? (fun x => x.id == n) = none) :
    calculateMinTimeStep rec n nodes edges memo =
      some (none, (n, (none : Option ℚ)) :: memo) := by
  unfold calculateMinTimeStep
  rw [hlk, hf]

theorem calculateMinTimeStep_resolved
    (rec : String → MinMemo → Option (Option ℚ × MinMemo))
    {n : String} {nodes : List TaskNode} (edges : List Edge) {memo : MinMemo}
    {node : TaskNode}
    (hlk : List.lookup n memo = none)
    (hf : nodes.find? (fun x => x.id == n) = some node)
    (hres : (node.data.status == "done" || node.data.status == "someday") =
      true) :
    calculateMinTimeStep rec n nodes edges memo =
      some (some 0, (n, some (0 : ℚ)) :: memo) := by
  unfold calculateMinTimeStep
  rw [hlk, hf]
  simp [hres]

theorem calculateMinTimeStep_noest
    (rec : String → MinMemo → Option (Option ℚ × MinMemo))
    {n : String} {nodes : List TaskNode} (edges : List Edge) {memo : MinMemo}
    {node : TaskNode}
    (hlk : List.lookup n memo = none)
    (hf : nodes.find? (fun x => x.id == n) = some node)
    (hres : (node.data.status == "done" || node.data.status == "someday") =
      false)
    (htt : estTruthy node.data.estimatedTime = false) :
    calculateMinTimeStep rec n nodes edges memo =
      some (none, (n, (none : Option ℚ)) :: memo) := by
  unfold calculateMinTimeStep
  rw [hlk, hf]
  simp [hres, htt]

theorem calculateMinTimeStep_noparents
    (rec : String → MinMemo → Option (Option ℚ × MinMemo))
    {n : String} {nodes : List TaskNode} {edges : List Edge} {memo : MinMemo}
    {node : TaskNode}
    (hlk : List.lookup n memo = none)
    (hf : nodes.find? (fun x => x.id == n) = some node)
    (hres : (node.data.status == "done" || node.data.status == "someday") =
      false)
    (htt : estTruthy node.data.estimatedTime = true)
    (hpe : ((edges.filter (fun e => e.target == n)).map
      (fun e => e.source)).isEmpty = true) :
    calculateMinTimeStep rec n nodes edges memo =
      some (some (getOwnTime node.data),
        (n, some (getOwnTime node.data)) :: memo) := by
  unfold calculateMinTimeStep
  rw [hlk, hf]
  simp [hres, htt, hpe]

theorem calculateMinTimeStep_parents_none
    (rec : String → MinMemo → Option (Option ℚ × MinMemo))
    {n : String} {nodes : List TaskNode} {edges : List Edge} {memo : MinMemo}
    {node : TaskNode}
    (hlk : List.lookup n memo = none)
    (hf : nodes.find? (fun x => x.id == n) = some node)
    (hres : (node.data.status == "done" || node.data.status == "someday") =
      false)
    (htt : estTruthy node.data.estimatedTime = true)
    (hpe : ((edges.filter (fun e => e.target == n)).map
      (fun e => e.source)).isEmpty = false)
    (hml : minList rec ((edges.filter (fun e => e.target == n)).map
      (fun e => e.source)) memo = none) :
    calculateMinTimeStep rec n nodes edges memo = none := by
  unfold calculateMinTimeStep
  rw [hlk, hf]
  simp [hres, htt, hpe, hml]

theorem calculateMinTimeStep_parents_some
    (rec : String → MinMemo → Option (Option ℚ × MinMemo))
    {n : String} {nodes : List TaskNode} {edges : List Edge} {memo : MinMemo}
    {node : TaskNode} {pv : List (Option ℚ)} {m1 : MinMemo}
    (hlk : List.lookup n memo = none)
    (hf : nodes.find? (fun x => x.id == n) = some node)
    (hres : (node.data.status == "done" || node.data.status == "someday") =
      false)
    (htt : estTruthy node.data.estimatedTime = true)
    (hpe : ((edges.filter (fun e => e.target == n)).map
      (fun e => e.source)).isEmpty = false)
    (hml : minList rec ((edges.filter (fun e => e.target == n)).map
      (fun e => e.source)) memo = some (pv, m1)) :
    calculateMinTimeStep rec n nodes edges memo =
      (if pv.any (fun t => t.isNone) then
        some (none, (n, (none : Option ℚ)) :: m1)
       else
        some (some (getOwnTime node.data + listMax (pv.map (fun t => t.getD 0))),
          (n, some (getOwnTime node.data +
            listMax (pv.map (fun t => t.getD 0)))) :: m1)) := by
  unfold calculateMinTimeStep
  rw [hlk, hf]
  simp [hres, htt, hpe, hml]

theorem minList_agree :
    ∀ (fuel : Nat) (nodes : List TaskNode) (edges : List Edge)
      (ps : List String) (memo : MinMemo) (ts : List (Option ℚ))
      (memo2 : MinMemo),
      (∀ p m t m2, MemoOK nodes edges m →
        calculateMinTimeF fuel p nodes edges m = some (t, m2) →
        MemoOK nodes edges m2 ∧
          ∃ g, criticalMinRecF g p nodes edges = some t) →
      MemoOK nodes edges memo →
      minList (fun p m => calculateMinTimeF fuel p nodes edges m) ps memo =
        some (ts, memo2) →
      MemoOK nodes edges memo2 ∧
        ∃ g, recList (fun p => criticalMinRecF g p nodes edges) ps = some ts
    := by
  intro fuel nodes edges ps
  induction ps with
  | nil =>
    intro memo ts memo2 _ hm h
    simp only [minList, Option.some.injEq, Prod.mk.injEq] at h
    obtain ⟨h1, h2⟩ := h
    exact ⟨h2 ▸ hm, 0, by rw [← h1]; rfl⟩
  | cons p rest ih =>
    intro memo ts memo2 hgo hm h
    simp only [minList] at h
    cases h1 : calculateMinTimeF fuel p nodes edges memo with
    | none => simp [h1] at h
    | some tm =>
      obtain ⟨t1, m1⟩ := tm
      simp only [h1] at h
      cases h2 : minList (fun p m => calculateMinTimeF fuel p nodes edges m)
          rest m1 with
      | none => simp [h2] at h
      | some tsm =>
        obtain ⟨ts2, m2⟩ := tsm
        simp only [h2, Option.some.injEq, Prod.mk.injEq] at h
        obtain ⟨hts, hm2⟩ := h
        obtain ⟨hok1, g1, hg1⟩ := hgo p memo t1 m1 hm h1
        obtain ⟨hok2, g2, hg2⟩ := ih m1 ts2 m2 hgo hok1 h2
        refine ⟨hm2 ▸ hok2, max g1 g2, ?_⟩
        rw [← hts]
        simp only [recList, criticalMinRecF_le (Nat.le_max_left g1 g2) hg1,
          recList_mono_gen
            (fun p2 t2 hp2 => criticalMinRecF_le (Nat.le_max_right g1 g2) hp2)
            _ _ hg2]

theorem calculateMinTimeF_agree :
    ∀ (fuel : Nat) (n : String) (nodes : List TaskNode) (edges : List Edge)
      (memo : MinMemo) (t : Option ℚ) (memo2 : MinMemo),
      MemoOK nodes edges memo →
      calculateMinTimeF fuel n nodes edges memo = some (t, memo2) →
      MemoOK nodes edges memo2 ∧
        ∃ g, criticalMinRecF g n nodes edges = some t := by
  intro fuel
  induction fuel with
  | zero => intro n nodes edges memo t memo2 _ h; simp [calculateMinTimeF] at h
  | succ f ih =>
    intro n nodes edges memo t memo2 hm h
    have hh : calculateMinTimeStep
        (fun p m => calculateMinTimeF f p nodes edges m) n nodes edges memo =
        some (t, memo2) := h
    cases hlk : List.lookup n memo with
    | some v =>
      rw [calculateMinTimeStep_memoHit _ nodes edges hlk] at hh
      simp only [Option.some.injEq, Prod.mk.injEq] at hh
      obtain ⟨h1, h2⟩ := hh
      exact ⟨h2 ▸ hm, h1 ▸ hm (n, v) (lookup_mem hlk)⟩
    | none =>
      cases hf : nodes.find? (fun x => x.id == n) with
      | none =>
        rw [calculateMinTimeStep_find_none _ edges hlk hf] at hh
        simp only [Option.some.injEq, Prod.mk.injEq] at hh
        obtain ⟨h1, h2⟩ := hh
        have hspec : criticalMinRecF 1 n nodes edges = some none :=
          criticalMinRecStep_find_none _ edges hf
        exact ⟨h2 ▸ MemoOK_cons hm ⟨1, hspec⟩, 1, h1 ▸ hspec⟩
      | some node =>
        cases hres : (node.data.status == "done" ||
            node.data.status == "someday") with
        | true =>
          rw [calculateMinTimeStep_resolved _ edges hlk hf hres] at hh
          simp only [Option.some.injEq, Prod.mk.injEq] at hh
          obtain ⟨h1, h2⟩ := hh
          have hspec : criticalMinRecF 1 n nodes edges = some (some 0) :=
            criticalMinRecStep_resolved _ edges hf hres
          exact ⟨h2 ▸ MemoOK_cons hm ⟨1, hspec⟩, 1, h1 ▸ hspec⟩
        | false =>
          cases htt : estTruthy node.data.estimatedTime with
          | false =>
            rw [calculateMinTimeStep_noest _ edges hlk hf hres htt] at hh
            simp only [Option.some.injEq, Prod.mk.injEq] at hh
            obtain ⟨h1, h2⟩ := hh
            have hspec : criticalMinRecF 1 n nodes edges = some none :=
              criticalMinRecStep_noest _ edges hf hres htt
            exact ⟨h2 ▸ MemoOK_cons hm ⟨1, hspec⟩, 1, h1 ▸ hspec⟩
          | true =>
            cases hpe : ((edges.filter (fun e => e.target == n)).map
                (fun e => e.source)).isEmpty with
            | true =>
              rw [calculateMinTimeStep_noparents _ hlk hf hres htt hpe] at hh
              simp only [Option.some.injEq, Prod.mk.injEq] at hh
              obtain ⟨h1, h2⟩ := hh
              have hspec : criticalMinRecF 1 n nodes edges =
                  some (some (getOwnTime node.data)) :=
                criticalMinRecStep_noparents _ hf hres htt hpe
              exact ⟨h2 ▸ MemoOK_cons hm ⟨1, hspec⟩, 1, h1 ▸ hspec⟩
            | false =>
              cases hml : minList
                  (fun p m => calculateMinTimeF f p nodes edges m)
                  ((edges.filter (fun e => e.target == n)).map
                    (fun e => e.source)) memo with
              | none =>
                rw [calculateMinTimeStep_parents_none _ hlk hf hres htt hpe
                  hml] at hh
                cases hh
              | some pvm =>
                obtain ⟨pv, m1⟩ := pvm
                rw [calculateMinTimeStep_parents_some _ hlk hf hres htt hpe
                  hml] at hh
                obtain ⟨hok1, g, hg⟩ := minList_agree f nodes edges _ memo pv
                  m1 (fun p m t2 m2 hmm hcc => ih p nodes edges m t2 m2 hmm
                    hcc) hm hml
                cases hany : pv.any (fun t => t.isNone) with
                | true =>
                  rw [if_pos (by rw [hany])] at hh
                  simp only [Option.some.injEq, Prod.mk.injEq] at hh
                  obtain ⟨h1, h2⟩ := hh
                  have hspec : criticalMinRecF (g + 1) n nodes edges =
                      some none := by
                    have := criticalMinRecStep_parents_some
                      (fun p => criticalMinRecF g p nodes edges) hf hres htt
                      hpe hg
                    rw [if_pos (by rw [hany])] at this
                    exact this
                  exact ⟨h2 ▸ MemoOK_cons hok1 ⟨g + 1, hspec⟩, g + 1,
                    h1 ▸ hspec⟩
                | false =>
                  rw [if_neg (by rw [hany]; exact Bool.false_ne_true)] at hh
                  simp only [Option.some.injEq, Prod.mk.injEq] at hh
                  obtain ⟨h1, h2⟩ := hh
                  have hvals : ∀ x ∈ pv.map (fun t => t.getD 0), 0 ≤ x := by
                    intro x hx
                    obtain ⟨t2, ht2, hxe⟩ := List.mem_map.mp hx
                    have hnn : t2.isNone = false := by
                      by_contra hcon
                      have : t2.isNone = true := by
                        cases hval : t2.isNone
                        · exact absurd hval hcon
                        · rfl
                      have := List.any_eq_true.mpr ⟨t2, ht2, this⟩
                      rw [hany] at this
                      cases this
                    obtain ⟨q, rfl⟩ : ∃ q, t2 = some q := by
                      cases t2
                      · simp at hnn
                      · exact ⟨_, rfl⟩
                    obtain ⟨p2, _, hp2⟩ := recList_mem_right _ _ hg _ ht2
                    have := criticalMinRecF_nonneg g p2 nodes edges q hp2
                    simpa [← hxe] using this
                  have hne : pv.map (fun t => t.getD 0) ≠ [] := by
                    have hlen := recList_length _ _ hg
                    intro hcon
                    have hpv : pv = [] := by simpa using hcon
                    subst hpv
                    simp only [List.length_nil] at hlen
                    have hnil : ((edges.filter (fun e => e.target == n)).map
                        (fun e => e.source)) = [] :=
                      List.length_eq_zero.mp hlen.symm
                    rw [hnil] at hpe
                    simp at hpe
                  have hmax0 : max 0 (listMax (pv.map (fun t => t.getD 0))) =
                      listMax (pv.map (fun t => t.getD 0)) :=
                    max_eq_right (listMax_nonneg _ hne hvals)
                  have hspec : criticalMinRecF (g + 1) n nodes edges =
                      some (some (getOwnTime node.data +
                        listMax (pv.map (fun t => t.getD 0)))) := by
                    have := criticalMinRecStep_parents_some
                      (fun p => criticalMinRecF g p nodes edges) hf hres htt
                      hpe hg
                    rw [if_neg (by rw [hany]; exact Bool.false_ne_true)]
                      at this
                    rw [hmax0] at this
                    exact this
                  exact ⟨h2 ▸ MemoOK_cons hok1 ⟨g + 1, hspec⟩, g + 1,
                    h1 ▸ hspec⟩

/-
The specification recurrence versus the poison predicate `Invalid`.
-/

theorem criticalMinRec_some_not_invalid :
    ∀ (g : Nat) (n : String) (nodes : List TaskNode) (edges : List Edge)
      (q : ℚ),
      criticalMinRecF g n nodes edges = some (some q) →
      ¬ Invalid nodes edges n := by
  intro g
  induction g with
  | zero => intro n nodes edges q h; simp [criticalMinRecF] at h
  | succ f ih =>
    intro n nodes edges q h hInv
    have hh : criticalMinRecStep (fun p => criticalMinRecF f p nodes edges)
        n nodes edges = some (some q) := h
    cases hInv with
    | base hf hd hs hest =>
      next nd =>
        have hres : ((nd.data.status == "done" ||
            nd.data.status == "someday") = false) := by
          simp [hd, hs]
        rw [criticalMinRecStep_noest _ edges hf hres hest] at hh
        simp at hh
    | step hf hd hs hest he ht hInvS =>
      next nd e =>
        have hres : ((nd.data.status == "done" ||
            nd.data.status == "someday") = false) := by
          simp [hd, hs]
        have hfilter : e ∈ edges.filter (fun e2 => e2.target == n) :=
          List.mem_filter.mpr ⟨he, by simp [ht]⟩
        have hmemp : e.source ∈ (edges.filter (fun e2 => e2.target == n)).map
            (fun e2 => e2.source) :=
          List.mem_map.mpr ⟨e, hfilter, rfl⟩
        cases hpe : ((edges.filter (fun e2 => e2.target == n)).map
            (fun e2 => e2.source)).isEmpty with
        | true =>
          rw [List.isEmpty_iff] at hpe
          rw [hpe] at hmemp
          simp at hmemp
        | false =>
          cases hrl : recList (fun p => criticalMinRecF f p nodes edges)
              ((edges.filter (fun e2 => e2.target == n)).map
                (fun e2 => e2.source)) with
          | none =>
            rw [criticalMinRecStep_parents_none _ hf hres hest hpe hrl] at hh
            cases hh
          | some ts =>
            rw [criticalMinRecStep_parents_some _ hf hres hest hpe hrl] at hh
            obtain ⟨t2, ht2, hgo2⟩ := recList_mem_left _ _ hrl e.source hmemp
            cases t2 with
            | none =>
              have hany : ts.any (fun t => t.isNone) = true :=
                List.any_eq_true.mpr ⟨none, ht2, rfl⟩
              rw [if_pos (by rw [hany])] at hh
              simp at hh
            | some q2 => exact ih e.source nodes edges q2 hgo2 hInvS

theorem criticalMinRec_none_invalid :
    ∀ (g : Nat) (n : String) (nodes : List TaskNode) (edges : List Edge),
      NoDangling nodes edges →
      (nodes.find? (fun x => x.id == n)).isSome →
      criticalMinRecF g n nodes edges = some none →
      Invalid nodes edges n := by
  intro g
  induction g with
  | zero => intro n nodes edges _ _ h; simp [criticalMinRecF] at h
  | succ f ih =>
    intro n nodes edges hnd hsome h
    have hh : criticalMinRecStep (fun p => criticalMinRecF f p nodes edges)
        n nodes edges = some none := h
    obtain ⟨node, hf⟩ := Option.isSome_iff_exists.mp hsome
    cases hres : (node.data.status == "done" ||
        node.data.status == "someday") with
    | true =>
      rw [criticalMinRecStep_resolved _ edges hf hres] at hh
      simp at hh
    | false =>
      have hor := Bool.or_eq_false_iff.mp hres
      have hd : node.data.status ≠ "done" := by simpa using hor.1
      have hs : node.data.status ≠ "someday" := by simpa using hor.2
      cases htt : estTruthy node.data.estimatedTime with
      | false => exact Invalid.base hf hd hs htt
      | true =>
        cases hpe : ((edges.filter (fun e2 => e2.target == n)).map
            (fun e2 => e2.source)).isEmpty with
        | true =>
          rw [criticalMinRecStep_noparents _ hf hres htt hpe] at hh
          simp at hh
        | false =>
          cases hrl : recList (fun p => criticalMinRecF f p nodes edges)
              ((edges.filter (fun e2 => e2.target == n)).map
                (fun e2 => e2.source)) with
          | none =>
            rw [criticalMinRecStep_parents_none _ hf hres htt hpe hrl] at hh
            cases hh
          | some ts =>
            rw [criticalMinRecStep_parents_some _ hf hres htt hpe hrl] at hh
            cases hany : ts.any (fun t => t.isNone) with
            | false =>
              rw [if_neg (by rw [hany]; exact Bool.false_ne_true)] at hh
              simp at hh
            | true =>
              obtain ⟨tnone, htnone, hisnone⟩ := List.any_eq_true.mp hany
              have htn : tnone = none := by
                cases tnone
                · rfl
                · simp at hisnone
              subst htn
              obtain ⟨p, hpmem, hpgo⟩ := recList_mem_right _ _ hrl none htnone
              obtain ⟨e, hef, hesrc⟩ := List.mem_map.mp hpmem
              obtain ⟨hee, het⟩ := List.mem_filter.mp hef
              have hfindp : (nodes.find? (fun x => x.id == e.source)).isSome :=
                (hnd e hee).1
              have hInvP : Invalid nodes edges p :=
                ih p nodes edges hnd (hesrc ▸ hfindp) hpgo
              exact Invalid.step hf hd hs htt hee (by simpa using het)
                (hesrc.symm ▸ hInvP)

/-
Branch equations for `hasInvalidStep`, and its soundness.
-/

theorem hasInvalidStep_cacheHit
    (rec : String → List String → InvCache → Option (Bool × InvCache))
    {n : String} (nodes : List TaskNode) (edges : List Edge)
    (visited : List String) {cache : InvCache} {b : Bool}
    (hlk : List.lookup n cache = some b) :
    hasInvalidStep rec n nodes edges visited cache = some (b, cache) := by
  unfold hasInvalidStep
  rw [hlk]

theorem hasInvalidStep_visited
    (rec : String → List String → InvCache → Option (Bool × InvCache))
    {n : String} (nodes : List TaskNode) (edges : List Edge)
    {visited : List String} {cache : InvCache}
    (hlk : List.lookup n cache = none)
    (hc : visited.contains n = true) :
    hasInvalidStep rec n nodes edges visited cache = some (false, cache) := by
  simp only [hasInvalidStep]
  rw [hlk, if_pos hc]

theorem hasInvalidStep_find_none
    (rec : String → List String → InvCache → Option (Bool × InvCache))
    {n : String} {nodes : List TaskNode} (edges : List Edge)
    {visited : List String} {cache : InvCache}
    (hlk : List.lookup n cache = none)
    (hc : visited.contains n = false)
    (hf : nodes.find? (fun x => x.id == n) = none) :
    hasInvalidStep rec n nodes edges visited cache =
      some (false, (n, false) :: cache) := by
  simp only [hasInvalidStep]
  rw [hlk, if_neg (show ¬(visited.contains n = true) from by rw [hc]; simp),
    hf]

theorem hasInvalidStep_resolved
    (rec : String → List String → InvCache → Option (Bool × InvCache))
    {n : String} {nodes : List TaskNode} (edges : List Edge)
    {visited : List String} {cache : InvCache} {node : TaskNode}
    (hlk : List.lookup n cache = none)
    (hc : visited.contains n = false)
    (hf : nodes.find? (fun x => x.id == n) = some node)
    (hres : (node.data.status == "done" || node.data.status == "someday") =
      true) :
    hasInvalidStep rec n nodes edges visited cache =
      some (false, (n, false) :: cache) := by
  simp only [hasInvalidStep]
  rw [hlk, if_neg (show ¬(visited.contains n = true) from by rw [hc]; simp)]
  simp only [hf]
  rw [if_pos hres]

theorem hasInvalidStep_noest
    (rec : String → List String → InvCache → Option (Bool × InvCache))
    {n : String} {nodes : List TaskNode} (edges : List Edge)
    {visited : List String} {cache : InvCache} {node : TaskNode}
    (hlk : List.lookup n cache = none)
    (hc : visited.contains n = false)
    (hf : nodes.find? (fun x => x.id == n) = some node)
    (hres : (node.data.status == "done" || node.data.status == "someday") =
      false)
    (htt : estTruthy node.data.estimatedTime = false) :
    hasInvalidStep rec n nodes edges visited cache =
      some (true, (n, true) :: cache) := by
  simp only [hasInvalidStep]
  rw [hlk, if_neg (show ¬(visited.contains n = true) from by rw [hc]; simp)]
  simp only [hf]
  rw [if_neg (show ¬((node.data.status == "done" ||
      node.data.status == "someday") = true) from by rw [hres]; simp),
    if_pos (show (!(estTruthy node.data.estimatedTime)) = true from by
      rw [htt]; rfl)]

theorem hasInvalidStep_parents_none
    (rec : String → List String → InvCache → Option (Bool × InvCache))
    {n : String} {nodes : List TaskNode} {edges : List Edge}
    {visited : List String} {cache : InvCache} {node : TaskNode}
    (hlk : List.lookup n cache = none)
    (hc : visited.contains n = false)
    (hf : nodes.find? (fun x => x.id == n) = some node)
    (hres : (node.data.status == "done" || node.data.status == "someday") =
      false)
    (htt : estTruthy node.data.estimatedTime = true)
    (hil : invList (fun p c => rec p (visited ++ [n]) c)
      ((edges.filter (fun e => e.target == n)).map (fun e => e.source))
      cache = none) :
    hasInvalidStep rec n nodes edges visited cache = none := by
  simp only [hasInvalidStep]
  rw [hlk, if_neg (show ¬(visited.contains n = true) from by rw [hc]; simp)]
  simp only [hf]
  rw [if_neg (show ¬((node.data.status == "done" ||
      node.data.status == "someday") = true) from by rw [hres]; simp),
    if_neg (show ¬((!(estTruthy node.data.estimatedTime)) = true) from by
      rw [htt]; simp), hil]

theorem hasInvalidStep_parents_some
    (rec : String → List String → InvCache → Option (Bool × InvCache))
    {n : String} {nodes : List TaskNode} {edges : List Edge}
    {visited : List String} {cache : InvCache} {node : TaskNode} {b : Bool}
    {c1 : InvCache}
    (hlk : List.lookup n cache = none)
    (hc : visited.contains n = false)
    (hf : nodes.find? (fun x => x.id == n) = some node)
    (hres : (node.data.status == "done" || node.data.status == "someday") =
      false)
    (htt : estTruthy node.data.estimatedTime = true)
    (hil : invList (fun p c => rec p (visited ++ [n]) c)
      ((edges.filter (fun e => e.target == n)).map (fun e => e.source))
      cache = some (b, c1)) :
    hasInvalidStep rec n nodes edges visited cache =
      some (b, (n, b) :: c1) := by
  simp only [hasInvalidStep]
  rw [hlk, if_neg (show ¬(visited.contains n = true) from by rw [hc]; simp)]
  simp only [hf]
  rw [if_neg (show ¬((node.data.status == "done" ||
      node.data.status == "someday") = true) from by rw [hres]; simp),
    if_neg (show ¬((!(estTruthy node.data.estimatedTime)) = true) from by
      rw [htt]; simp), hil]

theorem invList_sound {nodes : List TaskNode} {edges : List Edge}
    {go : String → InvCache → Option (Bool × InvCache)} :
    ∀ (ps : List String) (c : InvCache) (res : Bool × InvCache),
      (∀ p ∈ ps, ∀ c2 res2, CacheSound nodes edges c2 → go p c2 = some res2 →
        CacheSound nodes edges res2.2 ∧
          (res2.1 = true → Invalid nodes edges p)) →
      CacheSound nodes edges c →
      invList go ps c = some res →
      CacheSound nodes edges res.2 ∧
        (res.1 = true → ∃ p ∈ ps, Invalid nodes edges p) := by
  intro ps
  induction ps with
  | nil =>
    intro c res _ hc h
    simp only [invList, Option.some.injEq] at h
    subst h
    exact ⟨hc, by simp⟩
  | cons p rest ih =>
    intro c res hgo hc h
    simp only [invList] at h
    cases h1 : go p c with
    | none => simp [h1] at h
    | some bc =>
      obtain ⟨b, c1⟩ := bc
      simp only [h1] at h
      obtain ⟨hc1, hb⟩ := hgo p (List.mem_cons_self _ _) c ⟨b, c1⟩ hc h1
      cases b with
      | true =>
        rw [if_pos rfl] at h
        simp only [Option.some.injEq] at h
        subst h
        exact ⟨hc1, fun _ => ⟨p, List.mem_cons_self _ _, hb rfl⟩⟩
      | false =>
        rw [if_neg Bool.false_ne_true] at h
        obtain ⟨hcr, hex⟩ := ih c1 res
          (fun p2 hp2 => hgo p2 (List.mem_cons_of_mem _ hp2)) hc1 h
        refine ⟨hcr, fun ht => ?_⟩
        obtain ⟨p2, hp2, hi2⟩ := hex ht
        exact ⟨p2, List.mem_cons_of_mem _ hp2, hi2⟩

theorem hasInvalidAncestorF_sound :
    ∀ (fuel : Nat) (n : String) (nodes : List TaskNode) (edges : List Edge)
      (visited : List String) (cache : InvCache) (res : Bool × InvCache),
      CacheSound nodes edges cache →
      hasInvalidAncestorF fuel n nodes edges visited cache = some res →
      CacheSound nodes edges res.2 ∧
        (res.1 = true → Invalid nodes edges n) := by
  intro fuel
  induction fuel with
  | zero =>
    intro n nodes edges visited cache res _ h
    simp [hasInvalidAncestorF] at h
  | succ f ih =>
    intro n nodes edges visited cache res hcs h
    have hh : hasInvalidStep
        (fun p v c => hasInvalidAncestorF f p nodes edges v c) n nodes edges
        visited cache = some res := h
    cases hlk : List.lookup n cache with
    | some b =>
      rw [hasInvalidStep_cacheHit _ nodes edges visited hlk] at hh
      simp only [Option.some.injEq] at hh
      subst hh
      exact ⟨hcs, fun hb => hcs (n, b) (lookup_mem hlk) hb⟩
    | none =>
      cases hc : visited.contains n with
      | true =>
        rw [hasInvalidStep_visited _ nodes edges hlk hc] at hh
        simp only [Option.some.injEq] at hh
        subst hh
        exact ⟨hcs, by simp⟩
      | false =>
        cases hf : nodes.find? (fun x => x.id == n) with
        | none =>
          rw [hasInvalidStep_find_none _ edges hlk hc hf] at hh
          simp only [Option.some.injEq] at hh
          subst hh
          exact ⟨CacheSound_cons hcs (by simp), by simp⟩
        | some node =>
          cases hres : (node.data.status == "done" ||
              node.data.status == "someday") with
          | true =>
            rw [hasInvalidStep_resolved _ edges hlk hc hf hres] at hh
            simp only [Option.some.injEq] at hh
            subst hh
            exact ⟨CacheSound_cons hcs (by simp), by simp⟩
          | false =>
            have hor := Bool.or_eq_false_iff.mp hres
            have hd : node.data.status ≠ "done" := by simpa using hor.1
            have hs : node.data.status ≠ "someday" := by simpa using hor.2
            cases htt : estTruthy node.data.estimatedTime with
            | false =>
              rw [hasInvalidStep_noest _ edges hlk hc hf hres htt] at hh
              simp only [Option.some.injEq] at hh
              subst hh
              exact ⟨CacheSound_cons hcs
                (fun _ => Invalid.base hf hd hs htt),
                fun _ => Invalid.base hf hd hs htt⟩
            | true =>
              cases hil : invList
                  (fun p c => hasInvalidAncestorF f p nodes edges
                    (visited ++ [n]) c)
                  ((edges.filter (fun e => e.target == n)).map
                    (fun e => e.source)) cache with
              | none =>
                rw [hasInvalidStep_parents_none _ hlk hc hf hres htt hil]
                  at hh
                cases hh
              | some bc =>
                obtain ⟨b, c1⟩ := bc
                rw [hasInvalidStep_parents_some _ hlk hc hf hres htt hil]
                  at hh
                simp only [Option.some.injEq] at hh
                subst hh
                obtain ⟨hc1, hex⟩ := invList_sound _ cache (b, c1)
                  (fun p _ c2 res2 hcs2 hh2 =>
                    ih p nodes edges (visited ++ [n]) c2 res2 hcs2 hh2)
                  hcs hil
                have hbInv : b = true → Invalid nodes edges n := by
                  intro hb
                  obtain ⟨p, hpmem, hInvP⟩ := hex hb
                  obtain ⟨e, hef, hesrc⟩ := List.mem_map.mp hpmem
                  obtain ⟨hee, het⟩ := List.mem_filter.mp hef
                  exact Invalid.step hf hd hs htt hee (by simpa using het)
                    (hesrc.symm ▸ hInvP)
                exact ⟨CacheSound_cons hc1 hbInv, hbInv⟩

/-
Lookup behaviour of `mapSet` (JS `Map.set`) and of the ancestor loop.
-/

theorem lookup_of_any_false {m : CMap} {k : String}
    (h : m.any (fun p => p.1 == k) = false) : List.lookup k m = none := by
  induction m with
  | nil => rfl
  | cons p rest ih =>
    simp only [List.any_cons, Bool.or_eq_false_iff] at h
    obtain ⟨h1, h2⟩ := h
    obtain ⟨k2, v2⟩ := p
    have hne : k2 ≠ k := by simpa using h1
    simp only [List.lookup, beq_eq_false_iff_ne.mpr (Ne.symm hne)]
    exact ih h2

theorem lookup_append_self {m : CMap} {k : String} {v : TimeEntry}
    (h : List.lookup k m = none) :
    List.lookup k (m ++ [(k, v)]) = some v := by
  induction m with
  | nil => simp [List.lookup]
  | cons p rest ih =>
    obtain ⟨k2, v2⟩ := p
    simp only [List.lookup, List.cons_append] at h ⊢
    cases hb : (k == k2) with
    | true => simp only [hb] at h; cases h
    | false =>
      simp only [hb] at h ⊢
      exact ih h

theorem lookup_append_ne {m : CMap} {k k2 : String} {v : TimeEntry}
    (h : k2 ≠ k) : List.lookup k2 (m ++ [(k, v)]) = List.lookup k2 m := by
  induction m with
  | nil => simp [List.lookup, beq_eq_false_iff_ne.mpr h]
  | cons p rest ih =>
    obtain ⟨k3, v3⟩ := p
    simp only [List.cons_append, List.lookup]
    cases hb : (k2 == k3) with
    | true => simp only [hb]
    | false =>
      simp only [hb]
      exact ih

theorem lookup_replace_self {m : CMap} {k : String} {v : TimeEntry}
    (h : m.any (fun p => p.1 == k) = true) :
    List.lookup k (m.map (fun p => if p.1 == k then (k, v) else p)) =
      some v := by
  induction m with
  | nil => simp at h
  | cons p rest ih =>
    obtain ⟨k2, v2⟩ := p
    simp only [List.map_cons]
    cases hb : (k2 == k) with
    | true =>
      have hk : k2 = k := by simpa using hb
      subst hk
      simp [List.lookup]
    | false =>
      have hne : k2 ≠ k := by simpa using hb
      have hkk : (k == k2) = false := beq_eq_false_iff_ne.mpr (Ne.symm hne)
      simp only [show ((k2, v2).1 == k) = (k2 == k) from rfl, hb,
        Bool.false_eq_true, if_false, List.lookup, hkk]
      apply ih
      simpa [hb] using h

theorem lookup_replace_ne {m : CMap} {k k2 : String} {v : TimeEntry}
    (h : k2 ≠ k) :
    List.lookup k2 (m.map (fun p => if p.1 == k then (k, v) else p)) =
      List.lookup k2 m := by
  induction m with
  | nil => rfl
  | cons p rest ih =>
    obtain ⟨k3, v3⟩ := p
    simp only [List.map_cons]
    cases hb : (k3 == k) with
    | true =>
      have h3 : k3 = k := by simpa using hb
      subst h3
      have hkk : (k2 == k3) = false := beq_eq_false_iff_ne.mpr h
      simp [List.lookup, hkk]
      simpa using ih
    | false =>
      have hkk : ((k3, v3).1 == k) = false := hb
      simp only [hkk, Bool.false_eq_true, if_false, List.lookup]
      cases hb2 : (k2 == k3) with
      | true => simp only [hb2]
      | false =>
        simp only [hb2]
        exact ih

theorem mapSet_lookup_self (k : String) (v : TimeEntry) (m : CMap) :
    List.lookup k (mapSet k v m) = some v := by
  unfold mapSet
  cases hany : m.any (fun p => p.1 == k) with
  | true =>
    rw [if_pos rfl]
    exact lookup_replace_self hany
  | false =>
    rw [if_neg Bool.false_ne_true]
    exact lookup_append_self (lookup_of_any_false hany)

theorem mapSet_lookup_ne {k k2 : String} (v : TimeEntry) (m : CMap)
    (h : k2 ≠ k) : List.lookup k2 (mapSet k v m) = List.lookup k2 m := by
  unfold mapSet
  cases hany : m.any (fun p => p.1 == k) with
  | true =>
    rw [if_pos rfl]
    exact lookup_replace_ne h
  | false =>
    rw [if_neg Bool.false_ne_true]
    exact lookup_append_ne h

theorem lookup_ite_mapSet {c : Prop} [Decidable c] {sid aid : String}
    {v : TimeEntry} {ct : CMap} (hne : sid ≠ aid) :
    List.lookup sid (if c then mapSet aid v ct else ct) =
      List.lookup sid ct := by
  split
  · exact mapSet_lookup_ne _ _ hne
  · rfl

theorem ancestorLoopF_preserve :
    ∀ (fuel : Nat) (ids : List String) (nodes : List TaskNode)
      (edges : List Edge) (ct : CMap) (mm : MinMemo) (c : InvCache)
      (m : CMap) (sid : String),
      sid ∉ ids →
      ancestorLoopF fuel ids nodes edges ct mm c = some m →
      List.lookup sid m = List.lookup sid ct := by
  intro fuel ids
  induction ids with
  | nil =>
    intro nodes edges ct mm c m sid _ h
    simp only [ancestorLoopF, Option.some.injEq] at h
    rw [← h]
  | cons aid rest ih =>
    intro nodes edges ct mm c m sid hmem h
    have hne : sid ≠ aid := fun he => hmem (he ▸ List.mem_cons_self _ _)
    have hrest : sid ∉ rest := fun hr => hmem (List.mem_cons_of_mem _ hr)
    simp only [ancestorLoopF] at h
    cases hf : nodes.find? (fun x => x.id == aid) with
    | none =>
      simp only [hf] at h
      exact ih nodes edges ct mm c m sid hrest h
    | some node =>
      simp only [hf] at h
      split at h
      · exact ih nodes edges ct mm c m sid hrest h
      · split at h
        · rw [ih nodes edges _ mm c m sid hrest h,
            mapSet_lookup_ne _ _ hne]
        · cases hinv : hasInvalidAncestorF fuel aid nodes edges [] c with
          | none => simp [hinv] at h
          | some bc =>
            obtain ⟨b, c1⟩ := bc
            simp only [hinv] at h
            cases b with
            | true =>
              rw [if_pos rfl] at h
              exact ih nodes edges ct mm c1 m sid hrest h
            | false =>
              rw [if_neg Bool.false_ne_true] at h
              cases hmc : calculateMinTimeF fuel aid nodes edges mm with
              | none => simp [hmc] at h
              | some tmm =>
                obtain ⟨tm, mm1⟩ := tmm
                simp only [hmc] at h
                cases tm with
                | none => exact ih nodes edges ct mm1 c1 m sid hrest h
                | some av =>
                  cases hall : findAllAncestorsF fuel aid nodes edges [] with
                  | none => simp [hall] at h
                  | some R0 =>
                    simp only [hall] at h
                    rw [ih nodes edges _ mm1 c1 m sid hrest h,
                      lookup_ite_mapSet hne]

theorem Invalid_find {nodes : List TaskNode} {edges : List Edge} {n : String}
    (h : Invalid nodes edges n) :
    ∃ nd, nodes.find? (fun x => x.id == n) = some nd ∧
      nd.data.status ≠ "done" ∧ nd.data.status ≠ "someday" := by
  cases h with
  | base hf hd hs _ => exact ⟨_, hf, hd, hs⟩
  | step hf hd hs _ _ _ _ => exact ⟨_, hf, hd, hs⟩

/-- Claim C2 as amended: if the focal task has a poisoning backward path
(an active-estimated path ending at an active task with no estimate), the
returned map never holds a numeric entry for the focal: the focal maps to
the Unknown sentinel exactly when it lacks its own estimate, and is absent
otherwise. -/
theorem c2_poison_no_numeric_focal_entry :
    ∀ (fuel : Nat) (nodes : List TaskNode) (edges : List Edge) (sid : String)
      (m : CMap) (nd : TaskNode),
      calculateCumulativeTimesF fuel (some sid) nodes edges = some m →
      Invalid nodes edges sid →
      nodes.find? (fun x => x.id == sid) = some nd →
      ((estTruthy nd.data.estimatedTime = false →
        List.lookup sid m = some ⟨none, none, true⟩) ∧
       (estTruthy nd.data.estimatedTime = true →
        List.lookup sid m = none)) := by
  intro fuel nodes edges sid m nd h hInv hnd
  obtain ⟨nd2, hnd2, hd, hs⟩ := Invalid_find hInv
  rw [hnd] at hnd2
  obtain rfl : nd = nd2 := Option.some.inj hnd2
  have hres : ((nd.data.status == "done" || nd.data.status == "someday") =
      false) := by simp [hd, hs]
  simp only [calculateCumulativeTimesF, hnd] at h
  rw [if_neg (by rw [hres]; simp)] at h
  cases hall : findAllAncestorsF fuel sid nodes edges [] with
  | none => rw [hall] at h; cases h
  | some R0 =>
    simp only [hall] at h
    have hnodup : R0.Nodup :=
      findAllAncestorsF_nodup fuel sid nodes edges [] R0 hall List.nodup_nil
    have hsidout : sid ∉ R0.erase sid := by
      intro hcon
      exact absurd rfl ((List.Nodup.mem_erase_iff hnodup).mp hcon).1
    cases hinvq : hasInvalidAncestorF fuel sid nodes edges [] [] with
    | none => rw [hinvq] at h; cases h
    | some bc =>
      obtain ⟨b, c1⟩ := bc
      simp only [hinvq] at h
      have hmain : List.lookup sid m = List.lookup sid
          (if !(estTruthy nd.data.estimatedTime) then
            ([(sid, (⟨none, none, true⟩ : TimeEntry))] : CMap)
           else []) := by
        cases b with
        | true =>
          rw [if_pos rfl] at h
          exact ancestorLoopF_preserve fuel _ nodes edges _ [] c1 m sid
            hsidout h
        | false =>
          rw [if_neg Bool.false_ne_true] at h
          cases hmc : calculateMinTimeF fuel sid nodes edges [] with
          | none => rw [hmc] at h; cases h
          | some tmm =>
            obtain ⟨tm, mm1⟩ := tmm
            simp only [hmc] at h
            cases tm with
            | none =>
              exact ancestorLoopF_preserve fuel _ nodes edges _ mm1 c1 m sid
                hsidout h
            | some v =>
              obtain ⟨_, g, hg⟩ := calculateMinTimeF_agree fuel sid nodes
                edges [] (some v) mm1 (fun p hp => absurd hp
                  (List.not_mem_nil p)) hmc
              exact absurd hInv
                (criticalMinRec_some_not_invalid g sid nodes edges v hg)
      constructor
      · intro htt
        rw [hmain, htt]
        simp [List.lookup]
      · intro htt
        rw [hmain, htt]
        rfl

/-- Witness for the amended C2 on the counterexample snapshot: focal `f`
has an estimate, its ancestor `g` does not, and `f` has no entry in the
result map. -/
theorem c2_poison_no_numeric_focal_entry_witness :
    Invalid c2nodes c2edges "f" ∧
    List.lookup "f" [("g", (⟨none, none, true⟩ : TimeEntry))] = none := by
  have hInvG : Invalid c2nodes c2edges "g" :=
    @Invalid.base c2nodes c2edges "g" ⟨"g", ⟨"todo", none, "days"⟩⟩
      (by decide) (by decide) (by decide) (by decide)
  have hInv : Invalid c2nodes c2edges "f" :=
    @Invalid.step c2nodes c2edges "f" ⟨"f", ⟨"todo", some 1, "days"⟩⟩
      ⟨"g", "f"⟩ (by decide) (by decide) (by decide) (by decide) (by decide)
      rfl hInvG
  refine ⟨hInv, ?_⟩
  have h := c2_poison_no_numeric_focal_entry 9 c2nodes c2edges "f"
    [("g", ⟨none, none, true⟩)] ⟨"f", ⟨"todo", some 1, "days"⟩⟩ (by decide)
    hInv (by decide)
  exact h.2 (by decide)

/-
Claim C7, amended part: a dangling prerequisite is not treated as if absent.
-/

theorem isTaskExecutable_dangling {nodes : List TaskNode} {edges : List Edge}
    {e : Edge} (he : e ∈ edges)
    (hdang : nodes.find? (fun x => x.id == e.source) = none) :
    isTaskExecutable e.target edges nodes = false := by
  cases hall : isTaskExecutable e.target edges nodes with
  | false => rfl
  | true =>
    unfold isTaskExecutable at hall
    have hmem : e ∈ edges.filter (fun e2 => e2.target == e.target) :=
      List.mem_filter.mpr ⟨he, by simp⟩
    have h2 := List.all_eq_true.mp hall e hmem
    rw [hdang] at h2
    exact absurd h2 Bool.false_ne_true

theorem criticalMinRec_dangling_parent {nodes : List TaskNode}
    {edges : List Edge} {e : Edge} {nd : TaskNode} (he : e ∈ edges)
    (hdang : nodes.find? (fun x => x.id == e.source) = none)
    (hnd : nodes.find? (fun x => x.id == e.target) = some nd)
    (hres : (nd.data.status == "done" || nd.data.status == "someday") = false) :
    ∀ (g : Nat) (v : Option ℚ),
      criticalMinRecF g e.target nodes edges = some v → v = none := by
  intro g v h
  cases g with
  | zero => cases h
  | succ g =>
    have hstep : criticalMinRecStep (fun p => criticalMinRecF g p nodes edges)
        e.target nodes edges = some v := h
    cases htt : estTruthy nd.data.estimatedTime with
    | false =>
      rw [criticalMinRecStep_noest _ edges hnd hres htt] at hstep
      exact (Option.some.inj hstep).symm
    | true =>
      have hmem : e ∈ edges.filter (fun e2 => e2.target == e.target) :=
        List.mem_filter.mpr ⟨he, by simp⟩
      have hpmem : e.source ∈
          (edges.filter (fun e2 => e2.target == e.target)).map
            (fun e2 => e2.source) := List.mem_map.mpr ⟨e, hmem, rfl⟩
      have hpe : ((edges.filter (fun e2 => e2.target == e.target)).map
          (fun e2 => e2.source)).isEmpty = false := by
        cases hl : (edges.filter (fun e2 => e2.target == e.target)).map
            (fun e2 => e2.source) with
        | nil => rw [hl] at hpmem; cases hpmem
        | cons x xs => rfl
      cases hrl : recList (fun p => criticalMinRecF g p nodes edges)
          ((edges.filter (fun e2 => e2.target == e.target)).map
            (fun e2 => e2.source)) with
      | none =>
        rw [criticalMinRecStep_parents_none _ hnd hres htt hpe hrl] at hstep
        cases hstep
      | some ts =>
        obtain ⟨t, ht, hgo⟩ := recList_mem_left _ ts hrl e.source hpmem
        have htn : t = none := by
          cases g with
          | zero => cases hgo
          | succ g2 =>
            have hgo2 : criticalMinRecStep
                (fun p => criticalMinRecF g2 p nodes edges) e.source nodes
                edges = some t := hgo
            rw [criticalMinRecStep_find_none _ edges hdang] at hgo2
            exact (Option.some.inj hgo2).symm
        subst htn
        have hany : ts.any (fun t2 => t2.isNone) = true :=
          List.any_eq_true.mpr ⟨none, ht, rfl⟩
        rw [criticalMinRecStep_parents_some _ hnd hres htt hpe hrl] at hstep
        rw [if_pos hany] at hstep
        exact (Option.some.inj hstep).symm

/-- Claim C7 as amended: an edge whose source id matches no node causes no
crash, but it is not treated as if the node were absent: it makes its direct
dependent non-executable (hence never a frontier member, whatever the
selection), and it forces `calculateMinTime` on the dependent to the invalid
sentinel `null` even when the dependent itself is active and estimated. -/
theorem c7_dangling_blocks_dependent :
    ∀ (nodes : List TaskNode) (edges : List Edge) (e : Edge) (nd : TaskNode),
      e ∈ edges →
      nodes.find? (fun x => x.id == e.source) = none →
      nodes.find? (fun x => x.id == e.target) = some nd →
      (nd.data.status == "done" || nd.data.status == "someday") = false →
      (isTaskExecutable e.target edges nodes = false ∧
       (∀ (fuel : Nat) (sel : Option String) (fr : List String),
          findFrontierTasksF fuel sel nodes edges = some fr →
          e.target ∉ fr) ∧
       (∀ (fuel : Nat) (v : Option ℚ) (mm : MinMemo),
          calculateMinTimeF fuel e.target nodes edges [] = some (v, mm) →
          v = none)) := by
  intro nodes edges e nd he hdang hnd hres
  have hexec := isTaskExecutable_dangling he hdang
  refine ⟨hexec, ?_, ?_⟩
  · intro fuel sel fr h hmem
    cases sel with
    | none =>
      simp only [findFrontierTasksF, Option.some.injEq] at h
      subst h
      cases hmem
    | some sid =>
      simp only [findFrontierTasksF] at h
      cases hanc : findAncestorsF fuel sid edges [] with
      | none => rw [hanc] at h; cases h
      | some anc0 =>
        rw [hanc] at h
        obtain rfl := Option.some.inj h
        have hpred := (List.mem_filter.mp hmem).2
        simp only [hnd, Bool.and_eq_true] at hpred
        have h3 := hpred.2
        rw [hexec] at h3
        exact absurd h3 Bool.false_ne_true
  · intro fuel v mm hcm
    obtain ⟨_, g, hg⟩ := calculateMinTimeF_agree fuel e.target nodes edges []
      v mm (fun p hp => absurd hp (List.not_mem_nil p)) hcm
    exact criticalMinRec_dangling_parent he hdang hnd hres g v hg

/-- Witness for the amended C7: on the dangling snapshot, node `a` (whose
prerequisite id `ghost` matches no node) is non-executable, missing from the
frontier of `b`, and `calculateMinTime` on `a` returns the sentinel. -/
theorem c7_dangling_blocks_dependent_witness :
    isTaskExecutable "a" c7edges c7nodes = false ∧
    "a" ∉ ([] : List String) ∧
    (none : Option ℚ) = none := by
  have h := c7_dangling_blocks_dependent c7nodes c7edges ⟨"ghost", "a"⟩
    ⟨"a", ⟨"todo", some 1, "days"⟩⟩ (by decide) (by decide) (by decide)
      (by decide)
  exact ⟨h.1, h.2.1 9 (some "b") [] (by decide),
    h.2.2 5 none [("a", none), ("ghost", none)] (by decide)⟩

/-
Claim C4: the critical-path recurrence.
-/

def c4nodes : List TaskNode :=
  [⟨"A1", ⟨"todo", some 1, "days"⟩⟩, ⟨"A2", ⟨"todo", some 2, "days"⟩⟩,
   ⟨"B1", ⟨"todo", some 3, "days"⟩⟩, ⟨"B2", ⟨"todo", some 4, "days"⟩⟩,
   ⟨"C", ⟨"todo", some 2, "days"⟩⟩, ⟨"D", ⟨"done", some 1, "days"⟩⟩]

def c4edges : List Edge :=
  [⟨"A1", "A2"⟩, ⟨"B1", "B2"⟩, ⟨"A2", "C"⟩, ⟨"B2", "C"⟩]

/-- Claim C4: the computed critical-path minimum satisfies the claimed
recurrence.  Whenever `calculateMinTime` returns (under any memo whose
entries are recurrence values, in particular the empty memo), its value is a
value of the memoisation-free recurrence `criticalMinRecF`; that recurrence
yields 0 for a done/someday node, the node's own duration when it has no
prerequisites, and `duration + max(0, max over direct prerequisites)`
otherwise; and on two parallel chains of total durations 3 and 7 days
feeding a convergent node of duration 2, the computed minimum is 9. -/
theorem c4_critical_min_recurrence :
    (∀ (fuel : Nat) (n : String) (nodes : List TaskNode) (edges : List Edge)
       (memo : MinMemo) (v : Option ℚ) (mm : MinMemo),
       MemoOK nodes edges memo →
       calculateMinTimeF fuel n nodes edges memo = some (v, mm) →
       ∃ g, criticalMinRecF g n nodes edges = some v) ∧
    (∀ (g : Nat) (n : String) (nodes : List TaskNode) (edges : List Edge)
       (nd : TaskNode),
       nodes.find? (fun x => x.id == n) = some nd →
       (nd.data.status == "done" || nd.data.status == "someday") = true →
       criticalMinRecF (g + 1) n nodes edges = some (some 0)) ∧
    (∀ (g : Nat) (n : String) (nodes : List TaskNode) (edges : List Edge)
       (nd : TaskNode),
       nodes.find? (fun x => x.id == n) = some nd →
       (nd.data.status == "done" || nd.data.status == "someday") = false →
       estTruthy nd.data.estimatedTime = true →
       ((edges.filter (fun e => e.target == n)).map
         (fun e => e.source)).isEmpty = true →
       criticalMinRecF (g + 1) n nodes edges =
         some (some (getOwnTime nd.data))) ∧
    (∀ (g : Nat) (n : String) (nodes : List TaskNode) (edges : List Edge)
       (nd : TaskNode) (ts : List (Option ℚ)),
       nodes.find? (fun x => x.id == n) = some nd →
       (nd.data.status == "done" || nd.data.status == "someday") = false →
       estTruthy nd.data.estimatedTime = true →
       ((edges.filter (fun e => e.target == n)).map
         (fun e => e.source)).isEmpty = false →
       recList (fun p => criticalMinRecF g p nodes edges)
         ((edges.filter (fun e => e.target == n)).map (fun e => e.source)) =
           some ts →
       ts.any (fun t => t.isNone) = false →
       criticalMinRecF (g + 1) n nodes edges =
         some (some (getOwnTime nd.data +
           max 0 (listMax (ts.map (fun t => t.getD 0)))))) ∧
    (calculateMinTimeF 9 "C" c4nodes c4edges []).map Prod.fst =
      some (some 9) := by
  refine ⟨?_, ?_, ?_, ?_, ?_⟩
  · intro fuel n nodes edges memo v mm hok h
    exact (calculateMinTimeF_agree fuel n nodes edges memo v mm hok h).2
  · intro g n nodes edges nd hf hres
    have h2 : criticalMinRecStep (fun p => criticalMinRecF g p nodes edges) n
        nodes edges = some (some 0) :=
      criticalMinRecStep_resolved _ edges hf hres
    exact h2
  · intro g n nodes edges nd hf hres htt hpe
    have h2 : criticalMinRecStep (fun p => criticalMinRecF g p nodes edges) n
        nodes edges = some (some (getOwnTime nd.data)) :=
      criticalMinRecStep_noparents _ hf hres htt hpe
    exact h2
  · intro g n nodes edges nd ts hf hres htt hpe hrl hnone
    have h2 : criticalMinRecStep (fun p => criticalMinRecF g p nodes edges) n
        nodes edges = (if ts.any (fun t => t.isNone) then some none
          else some (some (getOwnTime nd.data +
            max 0 (listMax (ts.map (fun t => t.getD 0)))))) :=
      criticalMinRecStep_parents_some _ hf hres htt hpe hrl
    rw [hnone, if_neg Bool.false_ne_true] at h2
    exact h2
  · simp +decide [calculateMinTimeF, calculateMinTimeStep, minList, listMax,
      getOwnTime, convertToDays, estTruthy, c4nodes, c4edges, List.lookup,
      List.filter, List.find?]
    norm_num

/-- Witness for C4 on the chains snapshot: the convergent node evaluates to
9 days and each recurrence equation is exercised on a concrete node. -/
theorem c4_critical_min_recurrence_witness :
    (∃ g, criticalMinRecF g "C" c4nodes c4edges = some (some 9)) ∧
    criticalMinRecF 1 "D" c4nodes c4edges = some (some 0) ∧
    criticalMinRecF 1 "A1" c4nodes c4edges =
      some (some (getOwnTime (⟨"todo", some 1, "days"⟩ : NodeData))) ∧
    criticalMinRecF 3 "C" c4nodes c4edges =
      some (some (getOwnTime (⟨"todo", some 2, "days"⟩ : NodeData) +
        max 0 (listMax (([some 3, some 7] : List (Option ℚ)).map
          (fun t => t.getD 0))))) := by
  have h := c4_critical_min_recurrence
  refine ⟨?_, ?_, ?_, ?_⟩
  · exact h.1 9 "C" c4nodes c4edges [] (some 9)
      [("C", some 9), ("B2", some 7), ("B1", some 3), ("A2", some 3),
       ("A1", some 1)]
      (fun p hp => absurd hp (List.not_mem_nil p))
      (by
        simp +decide [calculateMinTimeF, calculateMinTimeStep, minList,
          listMax, getOwnTime, convertToDays, estTruthy, c4nodes, c4edges,
          List.lookup, List.filter, List.find?]
        norm_num)
  · exact h.2.1 0 "D" c4nodes c4edges ⟨"D", ⟨"done", some 1, "days"⟩⟩
      (by decide) (by decide)
  · exact h.2.2.1 0 "A1" c4nodes c4edges ⟨"A1", ⟨"todo", some 1, "days"⟩⟩
      (by decide) (by decide) (by decide) (by decide)
  · exact h.2.2.2.1 2 "C" c4nodes c4edges ⟨"C", ⟨"todo", some 2, "days"⟩⟩
      [some 3, some 7] (by decide) (by decide) (by decide) (by decide)
      (by
        simp +decide [recList, criticalMinRecF, criticalMinRecStep, listMax,
          getOwnTime, convertToDays, estTruthy, c4nodes, c4edges,
          List.filter, List.find?]
        norm_num)
      (by decide)

/-
Claim C5: the serial-sum characterisation (unique counting over the
terminating ancestor cone).
-/

def c5nodes : List TaskNode :=
  [⟨"A", ⟨"todo", some 1, "days"⟩⟩, ⟨"B", ⟨"todo", some 2, "days"⟩⟩,
   ⟨"C", ⟨"todo", some 4, "days"⟩⟩, ⟨"D", ⟨"todo", some 8, "days"⟩⟩]

def c5edges : List Edge :=
  [⟨"A", "B"⟩, ⟨"A", "C"⟩, ⟨"B", "D"⟩, ⟨"C", "D"⟩]

/-- Claim C5: for an unblocked (non-poisoned) active focal task with a
truthy estimate, whenever `calculateCumulativeTimes` returns a map holding
an entry for the focal, that entry's serial sum is the focal's own duration
plus the sum of per-ancestor contributions over a duplicate-free list that
holds exactly the terminating-cone ancestors of the focal (each unique
ancestor counted once; `contrib` is the ancestor's duration when it is
active with a truthy estimate and 0 otherwise). -/
theorem c5_serial_sum_unique :
    ∀ (fuel : Nat) (nodes : List TaskNode) (edges : List Edge) (sid : String)
      (m : CMap) (nd : TaskNode) (ent : TimeEntry),
      NoDangling nodes edges →
      ¬ Invalid nodes edges sid →
      calculateCumulativeTimesF fuel (some sid) nodes edges = some m →
      nodes.find? (fun x => x.id == sid) = some nd →
      (nd.data.status == "done" || nd.data.status == "someday") = false →
      estTruthy nd.data.estimatedTime = true →
      List.lookup sid m = some ent →
      ∃ R : List String, R.Nodup ∧
        (∀ x, x ∈ R ↔ (TReach nodes edges sid x ∧ x ≠ sid)) ∧
        ent.sum = some (sumContrib R nodes + getOwnTime nd.data) := by
  intro fuel nodes edges sid m nd ent hnodang hninv h hnd hres htt hlk
  simp only [calculateCumulativeTimesF, hnd] at h
  rw [if_neg (by rw [hres]; simp)] at h
  cases hall : findAllAncestorsF fuel sid nodes edges [] with
  | none => rw [hall] at h; cases h
  | some R0 =>
    simp only [hall] at h
    have hnodup : R0.Nodup :=
      findAllAncestorsF_nodup fuel sid nodes edges [] R0 hall List.nodup_nil
    have hsidout : sid ∉ R0.erase sid := by
      intro hcon
      exact absurd rfl ((List.Nodup.mem_erase_iff hnodup).mp hcon).1
    cases hinvq : hasInvalidAncestorF fuel sid nodes edges [] [] with
    | none => rw [hinvq] at h; cases h
    | some bc =>
      obtain ⟨b, c1⟩ := bc
      simp only [hinvq] at h
      have hbf : b = false := by
        cases b with
        | false => rfl
        | true =>
          exact absurd ((hasInvalidAncestorF_sound fuel sid nodes edges [] []
            (true, c1) (fun p hp _ => absurd hp (List.not_mem_nil p))
              hinvq).2 rfl) hninv
      subst hbf
      rw [if_neg Bool.false_ne_true] at h
      cases hmc : calculateMinTimeF fuel sid nodes edges [] with
      | none => rw [hmc] at h; cases h
      | some tmm =>
        obtain ⟨tm, mm1⟩ := tmm
        simp only [hmc] at h
        cases tm with
        | none =>
          obtain ⟨_, g, hg⟩ := calculateMinTimeF_agree fuel sid nodes edges
            [] none mm1 (fun p hp => absurd hp (List.not_mem_nil p)) hmc
          exact absurd (criticalMinRec_none_invalid g sid nodes edges
            hnodang (by rw [hnd]; rfl) hg) hninv
        | some v =>
          have hpres := ancestorLoopF_preserve fuel _ nodes edges _ mm1 c1 m
            sid hsidout h
          rw [hlk] at hpres
          simp only [htt, Bool.not_true, reduceIte] at hpres
          split at hpres
          · rw [mapSet_lookup_self] at hpres
            refine ⟨R0.erase sid, hnodup.erase sid, ?_, ?_⟩
            · intro x
              rw [List.Nodup.mem_erase_iff hnodup,
                findAllAncestorsF_mem_iff hall x]
              exact ⟨fun h2 => ⟨h2.2, h2.1⟩, fun h2 => ⟨h2.2, h2.1⟩⟩
            · obtain rfl : ent = _ := Option.some.inj hpres
              rfl
          · cases hpres

/-- Witness for C5 on the diamond snapshot `A → B`, `A → C`, `B → D`,
`C → D` with durations 1, 2, 4, 8: the emitted serial sum 15 for focal `D`
counts the shared ancestor `A` exactly once. -/
theorem c5_serial_sum_unique_witness :
    ∃ R : List String, R.Nodup ∧
      (∀ x, x ∈ R ↔ (TReach c5nodes c5edges "D" x ∧ x ≠ "D")) ∧
      (⟨some 15, some 13, false⟩ : TimeEntry).sum =
        some (sumContrib R c5nodes +
          getOwnTime (⟨"todo", some 8, "days"⟩ : NodeData)) := by
  have hninv : ¬ Invalid c5nodes c5edges "D" :=
    criticalMinRec_some_not_invalid 9 "D" c5nodes c5edges 13
      (by
        simp +decide [criticalMinRecF, criticalMinRecStep, recList, listMax,
          getOwnTime, convertToDays, estTruthy, c5nodes, c5edges,
          List.filter, List.find?]
        norm_num)
  exact c5_serial_sum_unique 9 c5nodes c5edges "D"
    [("D", ⟨some 15, some 13, false⟩), ("B", ⟨some 3, some 3, false⟩),
     ("A", ⟨some 1, some 1, false⟩), ("C", ⟨some 5, some 5, false⟩)]
    ⟨"D", ⟨"todo", some 8, "days"⟩⟩ ⟨some 15, some 13, false⟩
    (by unfold NoDangling; decide) hninv
    (by
      simp +decide [calculateCumulativeTimesF, ancestorLoopF,
        calculateMinTimeF, calculateMinTimeStep, minList, listMax,
        hasInvalidAncestorF, hasInvalidStep, invList, findAllAncestorsF,
        findAllAncestorsStep, ancList, mapSet, sumContrib, contrib,
        getOwnTime, convertToDays, estTruthy, c5nodes, c5edges, List.lookup,
        List.filter, List.find?]
      norm_num +decide [ancestorLoopF, mapSet, sumContrib, contrib,
        getOwnTime, convertToDays, estTruthy, c5nodes, c5edges, List.lookup,
        List.filter, List.find?, calculateMinTimeF, calculateMinTimeStep,
        minList, listMax, hasInvalidAncestorF, hasInvalidStep, invList,
        findAllAncestorsF, findAllAncestorsStep, ancList])
    (by decide) (by decide) (by decide) (by decide)

/-
Claim C10: critical-path minimum never exceeds the serial sum.  Acyclicity
is encoded by a topological rank: every edge strictly increases the rank
from source to target.
-/

theorem foldl_max_attained : ∀ (ys : List ℚ) (a : ℚ),
    ys.foldl max a = a ∨ ys.foldl max a ∈ ys := by
  intro ys
  induction ys with
  | nil => intro a; exact Or.inl rfl
  | cons y ys ih =>
    intro a
    rcases ih (max a y) with h1 | h2
    · rcases max_choice a y with hm | hm
      · left
        show ys.foldl max (max a y) = a
        rw [h1, hm]
      · right
        show ys.foldl max (max a y) ∈ y :: ys
        rw [h1, hm]
        exact List.mem_cons_self y ys
    · right
      show ys.foldl max (max a y) ∈ y :: ys
      exact List.mem_cons_of_mem y h2

theorem listMax_mem : ∀ (l : List ℚ), l ≠ [] → listMax l ∈ l := by
  intro l hne
  cases l with
  | nil => exact absurd rfl hne
  | cons y ys =>
    rcases foldl_max_attained ys y with h1 | h2
    · show ys.foldl max y ∈ y :: ys
      rw [h1]
      exact List.mem_cons_self y ys
    · exact List.mem_cons_of_mem y h2

theorem sumContrib_foldl_general :
    ∀ (ids : List String) (nodes : List TaskNode) (a : ℚ),
      ids.foldl (fun acc id => acc + contrib nodes id) a =
        a + (ids.map (contrib nodes)).sum := by
  intro ids
  induction ids with
  | nil => intro nodes a; simp
  | cons i rest ih =>
    intro nodes a
    show rest.foldl (fun acc id => acc + contrib nodes id)
      (a + contrib nodes i) = _
    rw [ih nodes (a + contrib nodes i)]
    simp [add_assoc]

theorem sumContrib_eq_sum (ids : List String) (nodes : List TaskNode) :
    sumContrib ids nodes = (ids.map (contrib nodes)).sum := by
  unfold sumContrib
  rw [sumContrib_foldl_general, zero_add]

theorem contrib_nonneg (nodes : List TaskNode) (id : String) :
    0 ≤ contrib nodes id := by
  unfold contrib
  split
  · exact le_refl 0
  · split
    · exact getOwnTime_nonneg _
    · exact le_refl 0

theorem sumContrib_nonneg (ids : List String) (nodes : List TaskNode) :
    0 ≤ sumContrib ids nodes := by
  rw [sumContrib_eq_sum]
  apply List.sum_nonneg
  intro x hx
  obtain ⟨id, _, rfl⟩ := List.mem_map.mp hx
  exact contrib_nonneg nodes id

theorem sumContrib_erase {R : List String} {p : String}
    (nodes : List TaskNode) (hp : p ∈ R) :
    sumContrib R nodes = contrib nodes p + sumContrib (R.erase p) nodes := by
  rw [sumContrib_eq_sum, sumContrib_eq_sum]
  have hperm : List.Perm (R.map (contrib nodes))
      ((p :: R.erase p).map (contrib nodes)) :=
    (List.perm_cons_erase hp).map (contrib nodes)
  rw [hperm.sum_eq]
  simp

theorem contrib_eq_own {nodes : List TaskNode} {n : String} {nd : TaskNode}
    (hf : nodes.find? (fun x => x.id == n) = some nd)
    (hres : (nd.data.status == "done" || nd.data.status == "someday") = false)
    (htt : estTruthy nd.data.estimatedTime = true) :
    contrib nodes n = getOwnTime nd.data := by
  have hor := Bool.or_eq_false_iff.mp hres
  unfold contrib
  simp only [hf]
  have h1 : (nd.data.status != "done") = true := by
    simp [bne, hor.1]
  have h2 : (nd.data.status != "someday") = true := by
    simp [bne, hor.2]
  simp [htt, h1, h2]

theorem TReach_rank_le {nodes : List TaskNode} {edges : List Edge}
    (rank : String → ℕ)
    (hrank : ∀ e ∈ edges, rank e.source < rank e.target) :
    ∀ {root x : String}, TReach nodes edges root x → rank x ≤ rank root := by
  intro root x h
  induction h with
  | refl => exact le_refl _
  | step h1 hfind hd hs he ht ih =>
    have hlt := hrank _ he
    rw [ht] at hlt
    exact le_trans hlt.le ih

theorem criticalMinRec_le_sum {nodes : List TaskNode} {edges : List Edge}
    (rank : String → ℕ)
    (hrank : ∀ e ∈ edges, rank e.source < rank e.target) :
    ∀ (g : Nat) (n : String) (v : ℚ) (R : List String),
      R.Nodup →
      (∀ x, TReach nodes edges n x → x ≠ n → x ∈ R) →
      criticalMinRecF g n nodes edges = some (some v) →
      v ≤ contrib nodes n + sumContrib R nodes := by
  intro g
  induction g with
  | zero => intro n v R _ _ h; cases h
  | succ g ih =>
    intro n v R hnodup hcone h
    have hh : criticalMinRecStep (fun p => criticalMinRecF g p nodes edges)
        n nodes edges = some (some v) := h
    cases hfind : nodes.find? (fun x => x.id == n) with
    | none =>
      rw [criticalMinRecStep_find_none _ edges hfind] at hh
      simp at hh
    | some nd =>
      cases hres : (nd.data.status == "done" ||
          nd.data.status == "someday") with
      | true =>
        rw [criticalMinRecStep_resolved _ edges hfind hres] at hh
        obtain rfl : (0 : ℚ) = v :=
          Option.some.inj (Option.some.inj hh)
        exact add_nonneg (contrib_nonneg nodes n) (sumContrib_nonneg R nodes)
      | false =>
        have hor := Bool.or_eq_false_iff.mp hres
        have hd : nd.data.status ≠ "done" := by simpa using hor.1
        have hs : nd.data.status ≠ "someday" := by simpa using hor.2
        cases htt : estTruthy nd.data.estimatedTime with
        | false =>
          rw [criticalMinRecStep_noest _ edges hfind hres htt] at hh
          simp at hh
        | true =>
          have hcontrib : contrib nodes n = getOwnTime nd.data :=
            contrib_eq_own hfind hres htt
          cases hpe : ((edges.filter (fun e2 => e2.target == n)).map
              (fun e2 => e2.source)).isEmpty with
          | true =>
            rw [criticalMinRecStep_noparents _ hfind hres htt hpe] at hh
            obtain rfl : getOwnTime nd.data = v :=
              Option.some.inj (Option.some.inj hh)
            rw [hcontrib]
            exact le_add_of_nonneg_right (sumContrib_nonneg R nodes)
          | false =>
            cases hrl : recList (fun p => criticalMinRecF g p nodes edges)
                ((edges.filter (fun e2 => e2.target == n)).map
                  (fun e2 => e2.source)) with
            | none =>
              rw [criticalMinRecStep_parents_none _ hfind hres htt hpe
                hrl] at hh
              cases hh
            | some ts =>
              rw [criticalMinRecStep_parents_some _ hfind hres htt hpe
                hrl] at hh
              cases hany : ts.any (fun t => t.isNone) with
              | true =>
                rw [if_pos (by rw [hany])] at hh
                simp at hh
              | false =>
                rw [if_neg (by rw [hany]; exact Bool.false_ne_true)] at hh
                obtain rfl : getOwnTime nd.data +
                    max 0 (listMax (ts.map (fun t => t.getD 0))) = v :=
                  Option.some.inj (Option.some.inj hh)
                rw [hcontrib]
                apply add_le_add_left
                rcases max_choice 0
                    (listMax (ts.map (fun t => t.getD 0))) with hm | hm
                · rw [hm]
                  exact sumContrib_nonneg R nodes
                · rw [hm]
                  have htsne : ts.map (fun t => t.getD 0) ≠ [] := by
                    intro hc
                    have hlen := recList_length _ _ hrl
                    have hts : ts = [] := by simpa using hc
                    rw [hts] at hlen
                    cases hl : (edges.filter (fun e2 => e2.target == n)).map
                        (fun e2 => e2.source) with
                    | nil => rw [hl] at hpe; simp at hpe
                    | cons a as => rw [hl] at hlen; simp at hlen
                  obtain ⟨t, ht, hgetd⟩ :=
                    List.mem_map.mp (listMax_mem _ htsne)
                  have htn : t.isNone = false := by
                    cases hti : t.isNone with
                    | false => rfl
                    | true =>
                      exact absurd (List.any_eq_true.mpr ⟨t, ht, hti⟩)
                        (by rw [hany]; simp)
                  obtain ⟨vp, rfl⟩ : ∃ vp, t = some vp := by
                    cases t with
                    | none => simp at htn
                    | some vp => exact ⟨vp, rfl⟩
                  obtain ⟨p, hpmem, hpgo⟩ := recList_mem_right _ _ hrl _ ht
                  obtain ⟨e, hef, rfl⟩ := List.mem_map.mp hpmem
                  have he : e ∈ edges := (List.mem_filter.mp hef).1
                  have hetar : e.target = n := by
                    have := (List.mem_filter.mp hef).2
                    simpa using this
                  have htr : TReach nodes edges n e.source :=
                    TReach.step TReach.refl hfind hd hs he hetar
                  have hpn : e.source ≠ n := by
                    intro hc
                    have hlt := hrank e he
                    rw [hetar, hc] at hlt
                    exact lt_irrefl _ hlt
                  have hpR : e.source ∈ R := hcone _ htr hpn
                  have hconeP : ∀ x, TReach nodes edges e.source x →
                      x ≠ e.source → x ∈ R.erase e.source := by
                    intro x hx hxp
                    have hnx : TReach nodes edges n x := TReach_trans htr hx
                    have hxn : x ≠ n := by
                      intro hc
                      have h1 : rank x ≤ rank e.source :=
                        TReach_rank_le rank hrank hx
                      have h2 : rank e.source < rank n := by
                        have hlt := hrank e he
                        rw [hetar] at hlt
                        exact hlt
                      rw [hc] at h1
                      exact absurd (lt_of_le_of_lt h1 h2) (lt_irrefl _)
                    exact (List.Nodup.mem_erase_iff hnodup).mpr
                      ⟨hxp, hcone x hnx hxn⟩
                  have ihp := ih e.source vp (R.erase e.source)
                    (hnodup.erase _) hconeP hpgo
                  rw [← hgetd]
                  show vp ≤ sumContrib R nodes
                  rw [sumContrib_erase nodes hpR]
                  exact le_trans ihp (add_le_add_right
                    (le_of_eq rfl) _) |>.trans (le_refl _)

/-- Shape of every entry of the cumulative-times map: either the Unknown
sentinel, or a numeric entry whose sum is the unique-ancestor contribution
total plus the node's own duration and whose min is a value of the
critical-path recurrence. -/
def EntrySpec (fuel : Nat) (nodes : List TaskNode) (edges : List Edge)
    (x : String) (ent : TimeEntry) : Prop :=
  ent = ⟨none, none, true⟩ ∨
  ∃ nd R0 v g, nodes.find? (fun y => y.id == x) = some nd ∧
    (nd.data.status == "done" || nd.data.status == "someday") = false ∧
    estTruthy nd.data.estimatedTime = true ∧
    findAllAncestorsF fuel x nodes edges [] = some R0 ∧
    criticalMinRecF g x nodes edges = some (some v) ∧
    ent = ⟨some (sumContrib (R0.erase x) nodes + getOwnTime nd.data),
      some v, false⟩

theorem ancestorLoopF_entries :
    ∀ (fuel : Nat) (ids : List String) (nodes : List TaskNode)
      (edges : List Edge) (ct : CMap) (mm : MinMemo) (c : InvCache)
      (m : CMap),
      MemoOK nodes edges mm →
      ancestorLoopF fuel ids nodes edges ct mm c = some m →
      (∀ x ent, List.lookup x ct = some ent →
        EntrySpec fuel nodes edges x ent) →
      ∀ x ent, List.lookup x m = some ent →
        EntrySpec fuel nodes edges x ent := by
  intro fuel ids
  induction ids with
  | nil =>
    intro nodes edges ct mm c m _ h hct x ent hx
    simp only [ancestorLoopF, Option.some.injEq] at h
    rw [← h] at hx
    exact hct x ent hx
  | cons aid rest ih =>
    intro nodes edges ct mm c m hok h hct
    simp only [ancestorLoopF] at h
    cases hf : nodes.find? (fun x => x.id == aid) with
    | none =>
      simp only [hf] at h
      exact ih nodes edges ct mm c m hok h hct
    | some node =>
      simp only [hf] at h
      split at h
      · exact ih nodes edges ct mm c m hok h hct
      · next hnres =>
        split at h
        · refine ih nodes edges _ mm c m hok h ?_
          intro x ent hx
          by_cases hxa : x = aid
          · subst hxa
            rw [mapSet_lookup_self] at hx
            exact Or.inl (Option.some.inj hx).symm
          · rw [mapSet_lookup_ne _ _ hxa] at hx
            exact hct x ent hx
        · next hnoest2 =>
          cases hinv : hasInvalidAncestorF fuel aid nodes edges [] c with
          | none => simp [hinv] at h
          | some bc =>
            obtain ⟨b, c1⟩ := bc
            simp only [hinv] at h
            cases b with
            | true =>
              rw [if_pos rfl] at h
              exact ih nodes edges ct mm c1 m hok h hct
            | false =>
              rw [if_neg Bool.false_ne_true] at h
              cases hmc : calculateMinTimeF fuel aid nodes edges mm with
              | none => simp [hmc] at h
              | some tmm =>
                obtain ⟨tm, mm1⟩ := tmm
                simp only [hmc] at h
                obtain ⟨hok1, g, hg⟩ := calculateMinTimeF_agree fuel aid
                  nodes edges mm tm mm1 hok hmc
                cases tm with
                | none => exact ih nodes edges ct mm1 c1 m hok1 h hct
                | some av =>
                  cases hall : findAllAncestorsF fuel aid nodes edges [] with
                  | none => simp [hall] at h
                  | some R0 =>
                    simp only [hall] at h
                    have hres : (node.data.status == "done" ||
                        node.data.status == "someday") = false := by
                      cases hcs : (node.data.status == "done" ||
                          node.data.status == "someday") with
                      | false => rfl
                      | true => exact absurd hcs hnres
                    have htt : estTruthy node.data.estimatedTime = true := by
                      cases hes : estTruthy node.data.estimatedTime with
                      | true => rfl
                      | false => exact absurd (by rw [hes]; rfl) hnoest2
                    refine ih nodes edges _ mm1 c1 m hok1 h ?_
                    intro x ent hx
                    rw [if_pos htt] at hx
                    split at hx
                    · by_cases hxa : x = aid
                      · subst hxa
                        rw [mapSet_lookup_self] at hx
                        refine Or.inr ⟨node, R0, av, g, hf, hres, htt, hall,
                          hg, ?_⟩
                        rw [← Option.some.inj hx]
                      · rw [mapSet_lookup_ne _ _ hxa] at hx
                        exact hct x ent hx
                    · exact hct x ent hx

/-- Claim C10: on an acyclic snapshot (witnessed by a topological rank that
strictly increases along every edge), every entry of the returned
cumulative-times map with numeric sum and min satisfies min ≤ sum. -/
theorem c10_min_le_sum :
    ∀ (fuel : Nat) (nodes : List TaskNode) (edges : List Edge)
      (sel : Option String) (m : CMap) (rank : String → ℕ),
      (∀ e ∈ edges, rank e.source < rank e.target) →
      calculateCumulativeTimesF fuel sel nodes edges = some m →
      ∀ x ent, List.lookup x m = some ent →
        ∀ s v, ent.sum = some s → ent.min = some v → v ≤ s := by
  intro fuel nodes edges sel m rank hrank h x ent hlk s v hsum hmin
  have hspec : EntrySpec fuel nodes edges x ent := by
    cases sel with
    | none =>
      simp only [calculateCumulativeTimesF, Option.some.injEq] at h
      rw [← h] at hlk
      cases hlk
    | some sid =>
      simp only [calculateCumulativeTimesF] at h
      cases hfind : nodes.find? (fun n => n.id == sid) with
      | none =>
        simp only [hfind, Option.some.injEq] at h
        rw [← h] at hlk
        cases hlk
      | some nd =>
        simp only [hfind] at h
        split at h
        · obtain rfl := Option.some.inj h
          cases hlk
        · next hnres =>
          have hres2 : (nd.data.status == "done" ||
              nd.data.status == "someday") = false := by
            cases hcs : (nd.data.status == "done" ||
                nd.data.status == "someday") with
            | false => rfl
            | true => exact absurd hcs hnres
          cases hall : findAllAncestorsF fuel sid nodes edges [] with
          | none => rw [hall] at h; cases h
          | some R0 =>
            simp only [hall] at h
            have hct0 : ∀ (y : String) (ent2 : TimeEntry), List.lookup y
                (if !(estTruthy nd.data.estimatedTime) then
                  ([(sid, (⟨none, none, true⟩ : TimeEntry))] : CMap)
                 else []) = some ent2 →
                EntrySpec fuel nodes edges y ent2 := by
              intro y ent2 hy
              split at hy
              · cases hyb : (y == sid) with
                | true =>
                  simp only [List.lookup, hyb] at hy
                  exact Or.inl (Option.some.inj hy).symm
                | false =>
                  simp only [List.lookup, hyb] at hy
                  cases hy
              · cases hy
            cases hinvq : hasInvalidAncestorF fuel sid nodes edges [] [] with
            | none => rw [hinvq] at h; cases h
            | some bc =>
              obtain ⟨b, c1⟩ := bc
              simp only [hinvq] at h
              cases b with
              | true =>
                rw [if_pos rfl] at h
                exact ancestorLoopF_entries fuel _ nodes edges _ [] c1 m
                  (fun p hp => absurd hp (List.not_mem_nil p)) h hct0 x ent
                  hlk
              | false =>
                rw [if_neg Bool.false_ne_true] at h
                cases hmc : calculateMinTimeF fuel sid nodes edges [] with
                | none => rw [hmc] at h; cases h
                | some tmm =>
                  obtain ⟨tm, mm1⟩ := tmm
                  simp only [hmc] at h
                  obtain ⟨hok1, g, hg⟩ := calculateMinTimeF_agree fuel sid
                    nodes edges [] tm mm1
                    (fun p hp => absurd hp (List.not_mem_nil p)) hmc
                  cases tm with
                  | none =>
                    exact ancestorLoopF_entries fuel _ nodes edges _ mm1 c1
                      m hok1 h hct0 x ent hlk
                  | some tv =>
                    have htt : estTruthy nd.data.estimatedTime = true := by
                      cases hes : estTruthy nd.data.estimatedTime with
                      | true => rfl
                      | false =>
                        cases fuel with
                        | zero => cases hmc
                        | succ f =>
                          have hstep : calculateMinTimeStep
                              (fun p mo =>
                                calculateMinTimeF f p nodes edges mo)
                              sid nodes edges [] = some (some tv, mm1) := hmc
                          rw [calculateMinTimeStep_noest _ edges (by rfl)
                            hfind hres2 hes] at hstep
                          simp at hstep
                    simp only [htt, Bool.not_true, reduceIte] at h
                    refine ancestorLoopF_entries fuel _ nodes edges _ mm1 c1
                      m hok1 h ?_ x ent hlk
                    intro y ent2 hy
                    split at hy
                    · by_cases hya : y = sid
                      · subst hya
                        rw [mapSet_lookup_self] at hy
                        refine Or.inr ⟨nd, R0, tv, g, hfind, hres2, htt,
                          hall, hg, ?_⟩
                        rw [← Option.some.inj hy]
                      · rw [mapSet_lookup_ne _ _ hya] at hy
                        cases hy
                    · cases hy
  rcases hspec with hqm | ⟨nd2, R02, v2, g2, hfind2, hres2b, htt2, hall2,
    hg2, hent⟩
  · rw [hqm] at hsum
    cases hsum
  · rw [hent] at hsum hmin
    obtain rfl : sumContrib (R02.erase x) nodes + getOwnTime nd2.data = s :=
      Option.some.inj hsum
    obtain rfl : v2 = v := Option.some.inj hmin
    have hnodup0 : R02.Nodup :=
      findAllAncestorsF_nodup fuel x nodes edges [] R02 hall2 List.nodup_nil
    have hcone : ∀ y, TReach nodes edges x y → y ≠ x → y ∈ R02.erase x := by
      intro y hy hyx
      exact (List.Nodup.mem_erase_iff hnodup0).mpr
        ⟨hyx, (findAllAncestorsF_mem_iff hall2 y).mpr hy⟩
    have hbound := criticalMinRec_le_sum rank hrank g2 x v2 (R02.erase x)
      (hnodup0.erase x) hcone hg2
    rw [contrib_eq_own hfind2 hres2b htt2, add_comm] at hbound
    exact hbound

def c10nodes : List TaskNode :=
  [⟨"Y", ⟨"todo", some 3, "days"⟩⟩, ⟨"X", ⟨"todo", some 2, "days"⟩⟩]

def c10edges : List Edge := [⟨"Y", "X"⟩]

/-- Witness for C10 on the two-node chain `Y → X`: the emitted entry for
`X` is {sum 5, min 5} and indeed min ≤ sum. -/
theorem c10_min_le_sum_witness :
    List.lookup "X" [("X", (⟨some 5, some 5, false⟩ : TimeEntry)),
      ("Y", ⟨some 3, some 3, false⟩)] =
      some (⟨some 5, some 5, false⟩ : TimeEntry) ∧ (5 : ℚ) ≤ 5 := by
  refine ⟨by decide, ?_⟩
  exact c10_min_le_sum 9 c10nodes c10edges (some "X")
    [("X", ⟨some 5, some 5, false⟩), ("Y", ⟨some 3, some 3, false⟩)]
    (fun str => if str = "X" then 1 else 0) (by decide)
    (by
      simp +decide [calculateCumulativeTimesF, ancestorLoopF,
        calculateMinTimeF, calculateMinTimeStep, minList, listMax,
        hasInvalidAncestorF, hasInvalidStep, invList, findAllAncestorsF,
        findAllAncestorsStep, ancList, mapSet, sumContrib, contrib,
        getOwnTime, convertToDays, estTruthy, c10nodes, c10edges,
        List.lookup, List.filter, List.find?]
      norm_num +decide [ancestorLoopF, mapSet, sumContrib, contrib,
        getOwnTime, convertToDays, estTruthy, c10nodes, c10edges,
        List.lookup, List.filter, List.find?, calculateMinTimeF,
        calculateMinTimeStep, minList, listMax, hasInvalidAncestorF,
        hasInvalidStep, invList, findAllAncestorsF, findAllAncestorsStep,
        ancList])
    "X" ⟨some 5, some 5, false⟩ (by decide) 5 5 rfl rfl

/-
Claim C6: the resolved barrier.  Helper congruence lemmas: each engine
traversal only reads node records inside the terminating cone of its root,
so two node lists that agree there produce identical results.
-/

theorem ancList_congr {go1 go2 : String → List String → Option (List String)}
    : ∀ (es : List Edge) (v : List String),
      (∀ e ∈ es, ∀ v2, go1 e.source v2 = go2 e.source v2) →
      ancList go1 es v = ancList go2 es v := by
  intro es
  induction es with
  | nil => intro v _; rfl
  | cons e rest ih =>
    intro v hgo
    simp only [ancList]
    rw [hgo e (List.mem_cons_self _ _) v]
    cases go2 e.source v with
    | none => rfl
    | some v2 =>
      exact ih v2 (fun e2 he2 v3 => hgo e2 (List.mem_cons_of_mem _ he2) v3)

theorem invList_congr {go1 go2 : String → InvCache → Option (Bool × InvCache)}
    : ∀ (ps : List String) (c : InvCache),
      (∀ p ∈ ps, ∀ c2, go1 p c2 = go2 p c2) →
      invList go1 ps c = invList go2 ps c := by
  intro ps
  induction ps with
  | nil => intro c _; rfl
  | cons p rest ih =>
    intro c hgo
    simp only [invList]
    rw [hgo p (List.mem_cons_self _ _) c]
    cases go2 p c with
    | none => rfl
    | some bc =>
      obtain ⟨b, c1⟩ := bc
      cases b with
      | true => rfl
      | false =>
        exact ih c1 (fun p2 hp2 c2 => hgo p2 (List.mem_cons_of_mem _ hp2) c2)

theorem minList_congr
    {go1 go2 : String → MinMemo → Option (Option ℚ × MinMemo)} :
    ∀ (ps : List String) (mo : MinMemo),
      (∀ p ∈ ps, ∀ mo2, go1 p mo2 = go2 p mo2) →
      minList go1 ps mo = minList go2 ps mo := by
  intro ps
  induction ps with
  | nil => intro mo _; rfl
  | cons p rest ih =>
    intro mo hgo
    simp only [minList]
    rw [hgo p (List.mem_cons_self _ _) mo]
    cases go2 p mo with
    | none => rfl
    | some tm =>
      obtain ⟨t, mo1⟩ := tm
      show (match minList go1 rest mo1 with
        | none => none
        | some (ts, memo2) => some (t :: ts, memo2)) =
        (match minList go2 rest mo1 with
        | none => none
        | some (ts, memo2) => some (t :: ts, memo2))
      rw [ih mo1 (fun p2 hp2 mo2 => hgo p2 (List.mem_cons_of_mem _ hp2) mo2)]

theorem contrib_congr {nodes nodes2 : List TaskNode} {x : String}
    (h : nodes.find? (fun n => n.id == x) = nodes2.find? (fun n => n.id == x))
    : contrib nodes x = contrib nodes2 x := by
  unfold contrib
  rw [h]

theorem contrib_map_congr {nodes nodes2 : List TaskNode} :
    ∀ (ids : List String),
      (∀ y ∈ ids, nodes.find? (fun n => n.id == y) =
        nodes2.find? (fun n => n.id == y)) →
      ids.map (contrib nodes) = ids.map (contrib nodes2) := by
  intro ids
  induction ids with
  | nil => intro _; rfl
  | cons i rest ih =>
    intro h
    simp only [List.map_cons]
    rw [contrib_congr (h i (List.mem_cons_self _ _)),
      ih (fun y hy => h y (List.mem_cons_of_mem _ hy))]

theorem sumContrib_congr {nodes nodes2 : List TaskNode} (ids : List String)
    (h : ∀ y ∈ ids, nodes.find? (fun n => n.id == y) =
      nodes2.find? (fun n => n.id == y)) :
    sumContrib ids nodes = sumContrib ids nodes2 := by
  rw [sumContrib_eq_sum, sumContrib_eq_sum, contrib_map_congr ids h]

theorem status_ne_of_res {st : String}
    (hres : (st == "done" || st == "someday") = false) :
    st ≠ "done" ∧ st ≠ "someday" := by
  have hor := Bool.or_eq_false_iff.mp hres
  exact ⟨by simpa using hor.1, by simpa using hor.2⟩

theorem findAllAncestorsF_frame {nodes nodes2 : List TaskNode}
    {edges : List Edge} :
    ∀ (fuel : Nat) (root : String) (visited : List String),
      (∀ y, TReach nodes edges root y →
        nodes.find? (fun n => n.id == y) =
          nodes2.find? (fun n => n.id == y)) →
      findAllAncestorsF fuel root nodes edges visited =
        findAllAncestorsF fuel root nodes2 edges visited := by
  intro fuel
  induction fuel with
  | zero => intro root visited _; rfl
  | succ f ih =>
    intro root visited hagree
    show findAllAncestorsStep (fun s v => findAllAncestorsF f s nodes edges v)
        root nodes edges visited =
      findAllAncestorsStep (fun s v => findAllAncestorsF f s nodes2 edges v)
        root nodes2 edges visited
    unfold findAllAncestorsStep
    cases hc : visited.contains root with
    | true => simp only [hc, reduceIte]
    | false =>
      rw [if_neg Bool.false_ne_true, if_neg Bool.false_ne_true]
      rw [← hagree root TReach.refl]
      cases hfind : nodes.find? (fun n => n.id == root) with
      | none => rfl
      | some node =>
        simp only [hfind]
        cases hres : (node.data.status == "done" ||
            node.data.status == "someday") with
        | true => simp only [hres, reduceIte]
        | false =>
          rw [if_neg Bool.false_ne_true, if_neg Bool.false_ne_true]
          obtain ⟨hd, hs⟩ := status_ne_of_res hres
          apply ancList_congr
          intro e he v2
          have he2 : e ∈ edges := (List.mem_filter.mp he).1
          have htar : e.target = root := by
            have := (List.mem_filter.mp he).2
            simpa using this
          have hstep : TReach nodes edges root e.source :=
            TReach.step TReach.refl hfind hd hs he2 htar
          exact ih e.source v2
            (fun y hy => hagree y (TReach_trans hstep hy))

theorem hasInvalidAncestorF_frame {nodes nodes2 : List TaskNode}
    {edges : List Edge} :
    ∀ (fuel : Nat) (root : String) (visited : List String) (c : InvCache),
      (∀ y, TReach nodes edges root y →
        nodes.find? (fun n => n.id == y) =
          nodes2.find? (fun n => n.id == y)) →
      hasInvalidAncestorF fuel root nodes edges visited c =
        hasInvalidAncestorF fuel root nodes2 edges visited c := by
  intro fuel
  induction fuel with
  | zero => intro root visited c _; rfl
  | succ f ih =>
    intro root visited c hagree
    show hasInvalidStep
        (fun p v c2 => hasInvalidAncestorF f p nodes edges v c2)
        root nodes edges visited c =
      hasInvalidStep
        (fun p v c2 => hasInvalidAncestorF f p nodes2 edges v c2)
        root nodes2 edges visited c
    unfold hasInvalidStep
    cases hcl : c.lookup root with
    | some b => simp only [hcl]
    | none =>
      simp only [hcl]
      cases hc : visited.contains root with
      | true => simp only [hc, reduceIte]
      | false =>
        rw [if_neg Bool.false_ne_true, if_neg Bool.false_ne_true]
        rw [← hagree root TReach.refl]
        cases hfind : nodes.find? (fun n => n.id == root) with
        | none => rfl
        | some node =>
          simp only [hfind]
          cases hres : (node.data.status == "done" ||
              node.data.status == "someday") with
          | true => simp only [hres, reduceIte]
          | false =>
            rw [if_neg Bool.false_ne_true, if_neg Bool.false_ne_true]
            obtain ⟨hd, hs⟩ := status_ne_of_res hres
            cases htt : estTruthy node.data.estimatedTime with
            | false => simp only [htt, Bool.not_false, reduceIte]
            | true =>
              rw [if_neg (show ((!true) = true) -> False from by decide),
                if_neg (show ((!true) = true) -> False from by decide)]
              rw [invList_congr
                ((edges.filter (fun e => e.target == root)).map
                  (fun e => e.source)) c ?_]
              intro p hp c2
              obtain ⟨e, hef, rfl⟩ := List.mem_map.mp hp
              have he2 : e ∈ edges := (List.mem_filter.mp hef).1
              have htar : e.target = root := by
                have := (List.mem_filter.mp hef).2
                simpa using this
              have hstep : TReach nodes edges root e.source :=
                TReach.step TReach.refl hfind hd hs he2 htar
              exact ih e.source (visited ++ [root]) c2
                (fun y hy => hagree y (TReach_trans hstep hy))

theorem calculateMinTimeF_frame {nodes nodes2 : List TaskNode}
    {edges : List Edge} :
    ∀ (fuel : Nat) (root : String) (memo : MinMemo),
      (∀ y, TReach nodes edges root y →
        nodes.find? (fun n => n.id == y) =
          nodes2.find? (fun n => n.id == y)) →
      calculateMinTimeF fuel root nodes edges memo =
        calculateMinTimeF fuel root nodes2 edges memo := by
  intro fuel
  induction fuel with
  | zero => intro root memo _; rfl
  | succ f ih =>
    intro root memo hagree
    show calculateMinTimeStep
        (fun p m => calculateMinTimeF f p nodes edges m)
        root nodes edges memo =
      calculateMinTimeStep
        (fun p m => calculateMinTimeF f p nodes2 edges m)
        root nodes2 edges memo
    unfold calculateMinTimeStep
    cases hml : memo.lookup root with
    | some v => simp only [hml]
    | none =>
      simp only [hml]
      rw [← hagree root TReach.refl]
      cases hfind : nodes.find? (fun n => n.id == root) with
      | none => rfl
      | some node =>
        simp only [hfind]
        cases hres : (node.data.status == "done" ||
            node.data.status == "someday") with
        | true => simp only [hres, reduceIte]
        | false =>
          rw [if_neg Bool.false_ne_true, if_neg Bool.false_ne_true]
          obtain ⟨hd, hs⟩ := status_ne_of_res hres
          cases htt : estTruthy node.data.estimatedTime with
          | false => simp only [htt, Bool.not_false, reduceIte]
          | true =>
            rw [if_neg (show ((!true) = true) -> False from by decide),
              if_neg (show ((!true) = true) -> False from by decide)]
            cases hpe : ((edges.filter (fun e => e.target == root)).map
                (fun e => e.source)).isEmpty with
            | true => simp only [hpe, reduceIte]
            | false =>
              rw [if_neg Bool.false_ne_true, if_neg Bool.false_ne_true]
              rw [minList_congr
                ((edges.filter (fun e => e.target == root)).map
                  (fun e => e.source)) memo ?_]
              intro p hp mo2
              obtain ⟨e, hef, rfl⟩ := List.mem_map.mp hp
              have he2 : e ∈ edges := (List.mem_filter.mp hef).1
              have htar : e.target = root := by
                have := (List.mem_filter.mp hef).2
                simpa using this
              have hstep : TReach nodes edges root e.source :=
                TReach.step TReach.refl hfind hd hs he2 htar
              exact ih e.source mo2
                (fun y hy => hagree y (TReach_trans hstep hy))

theorem ancestorLoopF_frame {nodes nodes2 : List TaskNode} {edges : List Edge}
    {sid : String} :
    ∀ (fuel : Nat) (ids : List String) (ct : CMap) (mm : MinMemo)
      (c : InvCache),
      (∀ aid ∈ ids, TReach nodes edges sid aid) →
      (∀ y, TReach nodes edges sid y →
        nodes.find? (fun n => n.id == y) =
          nodes2.find? (fun n => n.id == y)) →
      ancestorLoopF fuel ids nodes edges ct mm c =
        ancestorLoopF fuel ids nodes2 edges ct mm c := by
  intro fuel ids
  induction ids with
  | nil => intro ct mm c _ _; rfl
  | cons aid rest ih =>
    intro ct mm c hmem hagree
    have htr : TReach nodes edges sid aid :=
      hmem aid (List.mem_cons_self _ _)
    have hagA : ∀ y, TReach nodes edges aid y →
        nodes.find? (fun n => n.id == y) =
          nodes2.find? (fun n => n.id == y) :=
      fun y hy => hagree y (TReach_trans htr hy)
    have hmemr : ∀ a2 ∈ rest, TReach nodes edges sid a2 :=
      fun a2 ha2 => hmem a2 (List.mem_cons_of_mem _ ha2)
    simp only [ancestorLoopF]
    rw [← hagA aid TReach.refl]
    split
    · exact ih ct mm c hmemr hagree
    next node hfind =>
      split
      · exact ih ct mm c hmemr hagree
      · split
        · exact ih _ mm c hmemr hagree
        · rw [← hasInvalidAncestorF_frame fuel aid [] c hagA]
          split
          · rfl
          next inv c1 hinv =>
            split
            · exact ih ct mm c1 hmemr hagree
            · rw [← calculateMinTimeF_frame fuel aid mm hagA]
              split
              · rfl
              next tm mm1 hmc =>
                split
                · exact ih ct mm1 c1 hmemr hagree
                next av htm =>
                  rw [← findAllAncestorsF_frame fuel aid [] hagA]
                  split
                  · rfl
                  next ancAnc0 hall =>
                    have hsum : sumContrib (ancAnc0.erase aid) nodes =
                        sumContrib (ancAnc0.erase aid) nodes2 := by
                      apply sumContrib_congr
                      intro y hy
                      exact hagA y ((findAllAncestorsF_mem_iff hall y).mp
                        (List.mem_of_mem_erase hy))
                    rw [hsum]
                    exact ih _ mm1 c1 hmemr hagree

theorem calculateCumulativeTimesF_frame {nodes nodes2 : List TaskNode}
    {edges : List Edge} (fuel : Nat) (sid : String)
    (hagree : ∀ y, TReach nodes edges sid y →
      nodes.find? (fun n => n.id == y) =
        nodes2.find? (fun n => n.id == y)) :
    calculateCumulativeTimesF fuel (some sid) nodes edges =
      calculateCumulativeTimesF fuel (some sid) nodes2 edges := by
  simp only [calculateCumulativeTimesF]
  rw [← hagree sid TReach.refl]
  split
  · rfl
  next nd hfind =>
    split
    · rfl
    · rw [← findAllAncestorsF_frame fuel sid [] hagree]
      split
      · rfl
      next R0 hall =>
        rw [← hasInvalidAncestorF_frame fuel sid [] [] hagree]
        have hmemE : ∀ aid ∈ R0.erase sid, TReach nodes edges sid aid :=
          fun aid ha => (findAllAncestorsF_mem_iff hall aid).mp
            (List.mem_of_mem_erase ha)
        split
        · rfl
        next b c1 hinv =>
          split
          · exact ancestorLoopF_frame fuel _ _ [] c1 hmemE hagree
          · rw [← calculateMinTimeF_frame fuel sid [] hagree]
            split
            · rfl
            next tm mm1 hmc =>
              split
              · exact ancestorLoopF_frame fuel _ _ mm1 c1 hmemE hagree
              next tv htv =>
                have hsum : sumContrib (R0.erase sid) nodes =
                    sumContrib (R0.erase sid) nodes2 := by
                  apply sumContrib_congr
                  intro y hy
                  exact hagree y (hmemE y hy)
                rw [hsum]
                exact ancestorLoopF_frame fuel _ _ mm1 c1 hmemE hagree

theorem lookup_ct0_eq_sid {x sid : String} {ent : TimeEntry} {b : Bool}
    (hp : some ent = List.lookup x (if b = true then
      ([(sid, (⟨none, none, true⟩ : TimeEntry))] : CMap) else [])) :
    x = sid := by
  split at hp
  · cases hxs : (x == sid) with
    | true => simpa using hxs
    | false =>
      simp only [List.lookup, hxs] at hp
      cases hp
  · simp [List.lookup] at hp

/-- Claim C6, the resolved barrier: a done/someday node contributes zero to
the serial sum (`contrib` is 0) and zero to the critical-path recurrence
(its recurrence value is 0); every key of the returned cumulative-times map
lies in the terminating cone of the focal (`TReach`), which never crosses a
resolved node, so prerequisites reachable only through a resolved node are
never keys; and any two node lists that agree on every record of the
terminating cone produce identical result maps, so such hidden
prerequisites affect no emitted value. -/
theorem c6_resolved_barrier :
    (∀ (nodes : List TaskNode) (edges : List Edge) (b : String)
       (ndb : TaskNode) (g : Nat),
       nodes.find? (fun x => x.id == b) = some ndb →
       (ndb.data.status == "done" || ndb.data.status == "someday") = true →
       contrib nodes b = 0 ∧
         criticalMinRecF (g + 1) b nodes edges = some (some 0)) ∧
    (∀ (fuel : Nat) (nodes : List TaskNode) (edges : List Edge)
       (sid : String) (m : CMap),
       calculateCumulativeTimesF fuel (some sid) nodes edges = some m →
       ∀ x ent, List.lookup x m = some ent → TReach nodes edges sid x) ∧
    (∀ (fuel : Nat) (nodes nodes2 : List TaskNode) (edges : List Edge)
       (sid : String),
       (∀ y, TReach nodes edges sid y →
         nodes.find? (fun n => n.id == y) =
           nodes2.find? (fun n => n.id == y)) →
       calculateCumulativeTimesF fuel (some sid) nodes edges =
         calculateCumulativeTimesF fuel (some sid) nodes2 edges) := by
  refine ⟨?_, ?_, ?_⟩
  · intro nodes edges b ndb g hfind hres
    constructor
    · have hres2 := hres
      rw [Bool.or_eq_true] at hres2
      unfold contrib
      simp only [hfind]
      rcases hres2 with h1 | h2
      · have hb : (ndb.data.status != "done") = false := by
          simp [bne, h1]
        simp [hb]
      · have hb : (ndb.data.status != "someday") = false := by
          simp [bne, h2]
        simp [hb]
    · have h2 : criticalMinRecStep (fun p => criticalMinRecF g p nodes edges)
          b nodes edges = some (some 0) :=
        criticalMinRecStep_resolved _ edges hfind hres
      exact h2
  · intro fuel nodes edges sid m h x ent hlk
    simp only [calculateCumulativeTimesF] at h
    cases hfind : nodes.find? (fun n => n.id == sid) with
    | none =>
      simp only [hfind, Option.some.injEq] at h
      rw [← h] at hlk
      cases hlk
    | some nd =>
      simp only [hfind] at h
      split at h
      · obtain rfl := Option.some.inj h
        cases hlk
      · next hnres =>
        have hres2 : (nd.data.status == "done" ||
            nd.data.status == "someday") = false := by
          cases hcs : (nd.data.status == "done" ||
              nd.data.status == "someday") with
          | false => rfl
          | true => exact absurd hcs hnres
        cases hall : findAllAncestorsF fuel sid nodes edges [] with
        | none => rw [hall] at h; cases h
        | some R0 =>
          simp only [hall] at h
          by_cases hx : x ∈ R0.erase sid
          · exact (findAllAncestorsF_mem_iff hall x).mp
              (List.mem_of_mem_erase hx)
          · have hxid : x = sid := by
              cases hinvq : hasInvalidAncestorF fuel sid nodes edges [] []
                  with
              | none => rw [hinvq] at h; cases h
              | some bc =>
                obtain ⟨b, c1⟩ := bc
                simp only [hinvq] at h
                cases b with
                | true =>
                  rw [if_pos rfl] at h
                  have hp := ancestorLoopF_preserve fuel _ nodes edges _ []
                    c1 m x hx h
                  rw [hlk] at hp
                  exact lookup_ct0_eq_sid hp
                | false =>
                  rw [if_neg Bool.false_ne_true] at h
                  cases hmc : calculateMinTimeF fuel sid nodes edges [] with
                  | none => rw [hmc] at h; cases h
                  | some tmm =>
                    obtain ⟨tm, mm1⟩ := tmm
                    simp only [hmc] at h
                    cases tm with
                    | none =>
                      have hp := ancestorLoopF_preserve fuel _ nodes edges _
                        mm1 c1 m x hx h
                      rw [hlk] at hp
                      exact lookup_ct0_eq_sid hp
                    | some tv =>
                      have htt : estTruthy nd.data.estimatedTime = true := by
                        cases hes : estTruthy nd.data.estimatedTime with
                        | true => rfl
                        | false =>
                          cases fuel with
                          | zero => cases hmc
                          | succ f =>
                            have hstep : calculateMinTimeStep
                                (fun p mo =>
                                  calculateMinTimeF f p nodes edges mo)
                                sid nodes edges [] =
                                some (some tv, mm1) := hmc
                            rw [calculateMinTimeStep_noest _ edges (by rfl)
                              hfind hres2 hes] at hstep
                            simp at hstep
                      rw [if_pos htt] at h
                      have hp := ancestorLoopF_preserve fuel _ nodes edges _
                        mm1 c1 m x hx h
                      rw [hlk] at hp
                      split at hp
                      · by_cases hxs : x = sid
                        · exact hxs
                        · rw [mapSet_lookup_ne _ _ hxs] at hp
                          exact absurd (lookup_ct0_eq_sid hp) hxs
                      · exact lookup_ct0_eq_sid hp
            subst hxid
            exact TReach.refl
  · intro fuel nodes nodes2 edges sid hagree
    exact calculateCumulativeTimesF_frame fuel sid hagree

def c6nodes : List TaskNode :=
  [⟨"G", ⟨"todo", none, "days"⟩⟩, ⟨"E", ⟨"done", some 4, "days"⟩⟩,
   ⟨"F", ⟨"todo", some 1, "days"⟩⟩]

def c6nodes2 : List TaskNode :=
  [⟨"E", ⟨"done", some 4, "days"⟩⟩, ⟨"F", ⟨"todo", some 1, "days"⟩⟩]

def c6edges : List Edge := [⟨"G", "E"⟩, ⟨"E", "F"⟩]

/-- Witness for C6: behind the done node `E` sits `G`, an active node with
no estimate; `E` contributes zero to both metrics, the result keys stay in
the terminating cone, and deleting `G` entirely (`c6nodes2`) leaves the
result map unchanged. -/
theorem c6_resolved_barrier_witness :
    (contrib c6nodes "E" = 0 ∧
      criticalMinRecF 1 "E" c6nodes c6edges = some (some 0)) ∧
    TReach c6nodes c6edges "F" "F" ∧
    calculateCumulativeTimesF 9 (some "F") c6nodes c6edges =
      calculateCumulativeTimesF 9 (some "F") c6nodes2 c6edges := by
  have h := c6_resolved_barrier
  refine ⟨h.1 c6nodes c6edges "E" ⟨"E", ⟨"done", some 4, "days"⟩⟩ 0
    (by decide) (by decide), ?_, ?_⟩
  · refine h.2.1 9 c6nodes c6edges "F"
      [("F", ⟨some 1, some 1, false⟩)] ?_ "F" ⟨some 1, some 1, false⟩
      (by decide)
    simp +decide [calculateCumulativeTimesF, ancestorLoopF,
      calculateMinTimeF, calculateMinTimeStep, minList, listMax,
      hasInvalidAncestorF, hasInvalidStep, invList, findAllAncestorsF,
      findAllAncestorsStep, ancList, mapSet, sumContrib, contrib,
      getOwnTime, convertToDays, estTruthy, c6nodes, c6edges, List.lookup,
      List.filter, List.find?]
  · refine h.2.2 9 c6nodes c6nodes2 c6edges "F" ?_
    intro y hy
    have hmem := (findAllAncestorsF_mem_iff
      (show findAllAncestorsF 9 "F" c6nodes c6edges [] = some ["F", "E"]
        from by decide) y).mpr hy
    simp only [List.mem_cons, List.not_mem_nil, or_false] at hmem
    rcases hmem with rfl | rfl
    · decide
    · decide
